import Mathlib

/-!
Shallow embedding of the xacrodoc resolution and compilation core
(`src/xacrodoc/xacrodoc.py` and `src/xacrodoc/packages.py`).

Python strings are modelled as `List Char` (abbreviated `Str`); Python
`dict`s are modelled as association lists whose keys are unique by
construction.  Fallible Python code (code that raises) is modelled with
`Except`.  The external macro processor (the vendored `xacro` package,
which this core only drives) is kept abstract: the fixed-point driver is
parametric in the `process_doc` and `toxml` operations.
-/

/-- Python strings, modelled as lists of characters. -/
abbrev Str := List Char

/-- The protocol delimiter `"://"` used by `_split_path_protocol`. -/
def delimStr : Str := "://".toList

/-- Model of Python `s.split(delim, maxsplit=1)` restricted to the
information we need: `some (before, after)` splits at the *first*
occurrence of `delim`, `none` when `delim` does not occur in `s`. -/
def splitFirst (delim : Str) : Str → Option (Str × Str)
  | [] => none
  | c :: rest =>
    if delim <+: (c :: rest) then some ([], (c :: rest).drop delim.length)
    else (splitFirst delim rest).map fun p => (c :: p.1, p.2)

/-- Boolean substring test: does `delim` occur in the string? -/
def containsSub (delim : Str) : Str → Bool
  | [] => decide (delim = [])
  | c :: rest => decide (delim <+: (c :: rest)) || containsSub delim rest

/-- Embedding of `_split_path_protocol` (xacrodoc.py, lines 188-207):
`parts = path.split("://", maxsplit=1)`; the protocol is
`parts[0] + "://"` when the delimiter occurs and `""` otherwise. -/
def splitPathProtocol (path : Str) : Str × Str :=
  match splitFirst delimStr path with
  | none => ([], path)
  | some (pre, post) => (pre ++ delimStr, post)

/-- Embedding of `_strip_path_protocol` (xacrodoc.py, lines 210-223). -/
def stripPathProtocol (path : Str) : Str :=
  (splitPathProtocol path).2

theorem splitFirst_eq_append (delim s a b : Str)
    (h : splitFirst delim s = some (a, b)) : s = a ++ delim ++ b := by
  induction s generalizing a b with
  | nil => simp [splitFirst] at h
  | cons c rest ih =>
    rw [splitFirst] at h
    by_cases hp : delim <+: (c :: rest)
    · simp only [if_pos hp, Option.some.injEq, Prod.mk.injEq] at h
      obtain ⟨ht, hb⟩ := h
      obtain ⟨t, htl⟩ := hp
      subst ht
      rw [← hb, ← htl, List.drop_left, List.nil_append]
    · simp only [if_neg hp, Option.map_eq_some'] at h
      obtain ⟨p, hp1, hp2⟩ := h
      obtain ⟨ha, hb⟩ := Prod.mk.injEq .. ▸ hp2
      rw [← ha, ← hb]
      have := ih p.1 p.2 (by rw [hp1])
      simp [this]

theorem splitFirst_min (delim s a b : Str)
    (h : splitFirst delim s = some (a, b)) :
    ∀ a' b', s = a' ++ delim ++ b' → a.length ≤ a'.length := by
  induction s generalizing a b with
  | nil => simp [splitFirst] at h
  | cons c rest ih =>
    rw [splitFirst] at h
    by_cases hp : delim <+: (c :: rest)
    · simp only [if_pos hp, Option.some.injEq, Prod.mk.injEq] at h
      obtain ⟨ht, _⟩ := h
      subst ht
      intro a' b' _
      simp
    · simp only [if_neg hp, Option.map_eq_some'] at h
      obtain ⟨p, hp1, hp2⟩ := h
      obtain ⟨ha, _⟩ := Prod.mk.injEq .. ▸ hp2
      intro a' b' hs
      match a' with
      | [] =>
        exfalso
        apply hp
        exact ⟨b', by simpa using hs.symm⟩
      | c' :: a'' =>
        have hc : c = c' := by simpa using congrArg (List.head? ·) hs
        have hrest : rest = a'' ++ delim ++ b' := by
          simpa using congrArg List.tail hs
        have := ih p.1 p.2 (by rw [hp1]) a'' b' hrest
        rw [← ha]
        simpa using Nat.succ_le_succ this

theorem splitFirst_isSome (delim : Str) (hd : delim ≠ []) (s : Str) :
    (splitFirst delim s).isSome = containsSub delim s := by
  induction s with
  | nil => simp [splitFirst, containsSub, hd]
  | cons c rest ih =>
    rw [splitFirst, containsSub]
    by_cases hp : delim <+: (c :: rest)
    · simp [hp]
    · simp [hp, ih]

theorem containsSub_false_splitFirst (delim : Str) (hd : delim ≠ []) (s : Str)
    (h : containsSub delim s = false) : splitFirst delim s = none := by
  have h2 := splitFirst_isSome delim hd s
  rw [h] at h2
  cases hsf : splitFirst delim s with
  | none => rfl
  | some p => rw [hsf] at h2; simp at h2

theorem containsSub_append_self (delim : Str) (hd : delim ≠ []) (a b : Str) :
    containsSub delim (a ++ (delim ++ b)) = true := by
  induction a with
  | nil =>
    rw [List.nil_append]
    match delim, hd with
    | c :: ds, _ =>
      rw [List.cons_append, containsSub]
      have hpre : (c :: ds) <+: (c :: (ds ++ b)) := by
        rw [← List.cons_append]
        exact List.prefix_append (c :: ds) b
      simp [hpre]
  | cons x xs ih =>
    rw [List.cons_append, containsSub]
    simp [ih]

/-- **C10** (amended): `_split_path_protocol` returns `(protocol, rest)` with
`protocol ++ rest` equal to the input; the protocol is non-empty (and then
ends with `"://"`) iff the input contains the delimiter; the split happens at
the *first* occurrence of the delimiter; and stripping the protocol is the
identity on any string that does not contain the delimiter (hence stripping
an already-stripped path is the identity whenever the remainder contains no
further delimiter; in general one protocol layer is removed per call). -/
theorem splitPathProtocol_spec (s proto rest : Str)
    (h : splitPathProtocol s = (proto, rest)) :
    proto ++ rest = s
    ∧ (proto ≠ [] ↔ containsSub delimStr s = true)
    ∧ (proto ≠ [] → delimStr <:+ proto)
    ∧ (∀ a b : Str, s = a ++ delimStr ++ b →
        proto.length ≤ a.length + delimStr.length)
    ∧ (containsSub delimStr rest = false → stripPathProtocol rest = rest) := by
  have hd : delimStr ≠ [] := by decide
  rw [splitPathProtocol] at h
  cases hsf : splitFirst delimStr s with
  | none =>
    rw [hsf] at h
    obtain ⟨hp, hr⟩ := Prod.mk.injEq .. ▸ h
    subst hp; subst hr
    have hcon : containsSub delimStr s = false := by
      have := splitFirst_isSome delimStr hd s
      rw [hsf] at this
      simpa using this.symm
    refine ⟨by simp, by simp [hcon], by simp, ?_, ?_⟩
    · intro a b hab
      exfalso
      have hture : containsSub delimStr s = true := by
        rw [hab, List.append_assoc]
        exact containsSub_append_self delimStr hd a b
      rw [hcon] at hture
      exact Bool.false_ne_true hture
    · intro hnone
      rw [stripPathProtocol, splitPathProtocol,
        containsSub_false_splitFirst delimStr hd s hnone]
  | some p =>
    rw [hsf] at h
    obtain ⟨hp, hr⟩ := Prod.mk.injEq .. ▸ h
    have hs := splitFirst_eq_append delimStr s p.1 p.2 (by rw [hsf])
    refine ⟨?_, ?_, ?_, ?_, ?_⟩
    · rw [← hp, ← hr]
      simp [hs]
    · constructor
      · intro _
        have := splitFirst_isSome delimStr hd s
        rw [hsf] at this
        simpa using this.symm
      · intro _
        rw [← hp]
        simp [hd]
    · intro _
      rw [← hp]
      exact ⟨p.1, rfl⟩
    · intro a b hab
      have := splitFirst_min delimStr s p.1 p.2 (by rw [hsf]) a b hab
      rw [← hp]
      simpa using Nat.add_le_add_right this delimStr.length
    · intro hnone
      rw [stripPathProtocol, splitPathProtocol,
        containsSub_false_splitFirst delimStr hd rest hnone]

/-- Witness for `splitPathProtocol_spec`, instantiated at the concrete input
`"file://a/b"`. -/
theorem splitPathProtocol_spec_witness :
    "file://".toList ++ "a/b".toList = "file://a/b".toList
    ∧ ("file://".toList ≠ ([] : Str)
        ↔ containsSub delimStr ("file://a/b".toList) = true)
    ∧ ("file://".toList ≠ ([] : Str) → delimStr <:+ "file://".toList)
    ∧ (∀ a b : Str, "file://a/b".toList = a ++ delimStr ++ b →
        "file://".toList.length ≤ a.length + delimStr.length)
    ∧ (containsSub delimStr ("a/b".toList) = false →
        stripPathProtocol ("a/b".toList) = "a/b".toList) :=
  splitPathProtocol_spec ("file://a/b".toList) ("file://".toList)
    ("a/b".toList) (by decide)

/-- **C10 counterexample**: stripping the protocol of an already-stripped
path is *not* always the identity: on `"a://b://c"` one strip yields
`"b://c"` and a second strip yields `"c"`. -/
theorem stripPathProtocol_not_idempotent :
    stripPathProtocol (stripPathProtocol ("a://b://c".toList))
      ≠ stripPathProtocol ("a://b://c".toList) := by
  decide

/-- The failure kinds of `_compile_xacro_file` (it raises `ValueError`,
which the spec calls `NonConvergence`). -/
inductive CompileError where
  | nonConvergence
  deriving DecidableEq

/-- Embedding of the loop of `_compile_xacro_file` (xacrodoc.py, lines
56-74).  The Python loop is `run = 1; while run < max_runs: ...`, so it
performs at most `max_runs - 1` expansion passes; `fuel` stands for
`max_runs - run`.  The document type and the external macro processor
(`xacro.process_doc`, modelled by `process` since it is only driven, never
inspected, by this core) and serializer (`dom.toxml()`, modelled by
`toxml`) are parameters.  The second component of the result counts how
many expansion passes (`process` invocations) were performed. -/
def compileGoCount {Doc : Type} (process : Doc → Doc) (toxml : Doc → Str) :
    Nat → Doc → Str → Nat → Except CompileError Doc × Nat
  | 0, _, _, count => (.error .nonConvergence, count)
  | fuel + 1, dom, s1, count =>
    if s1 = toxml (process dom) then (.ok (process dom), count + 1)
    else compileGoCount process toxml fuel (process dom)
      (toxml (process dom)) (count + 1)

/-- Embedding of `_compile_xacro_file` (xacrodoc.py, lines 32-74):
parse once, take the initial serialization, then run the fixed-point
loop with `run` starting at `1`. -/
def compileXacroFile {Doc : Type} (process : Doc → Doc) (toxml : Doc → Str)
    (parse : Str → Doc) (maxRuns : Nat) (text : Str) :
    Except CompileError Doc × Nat :=
  compileGoCount process toxml (maxRuns - 1) (parse text)
    (toxml (parse text)) 0

theorem compileGoCount_error_iff {Doc : Type} (process : Doc → Doc)
    (toxml : Doc → Str) (fuel : Nat) (dom : Doc) (count : Nat) :
    (compileGoCount process toxml fuel dom (toxml dom) count).1
        = .error .nonConvergence
    ↔ ∀ i < fuel, toxml (process^[i + 1] dom) ≠ toxml (process^[i] dom) := by
  induction fuel generalizing dom count with
  | zero => simp [compileGoCount]
  | succ fuel ih =>
    rw [compileGoCount]
    by_cases he : toxml dom = toxml (process dom)
    · rw [if_pos he]
      constructor
      · intro h; exact absurd h (by simp)
      · intro h
        exfalso
        have h0 := h 0 (Nat.succ_pos fuel)
        simp only [Function.iterate_one, Function.iterate_zero, id] at h0
        exact h0 he.symm
    · rw [if_neg he]
      rw [ih (process dom) (count + 1)]
      constructor
      · intro h i hi
        match i with
        | 0 => simpa using Ne.symm he
        | j + 1 =>
          have := h j (Nat.lt_of_succ_lt_succ hi)
          simpa [Function.iterate_succ_apply] using this
      · intro h i hi
        have := h (i + 1) (Nat.succ_lt_succ hi)
        simpa [Function.iterate_succ_apply] using this

theorem compileGoCount_error_count {Doc : Type} (process : Doc → Doc)
    (toxml : Doc → Str) (fuel : Nat) (dom : Doc) (s1 : Str) (count : Nat)
    (h : (compileGoCount process toxml fuel dom s1 count).1
        = .error .nonConvergence) :
    (compileGoCount process toxml fuel dom s1 count).2 = count + fuel := by
  induction fuel generalizing dom s1 count with
  | zero => simp [compileGoCount]
  | succ fuel ih =>
    rw [compileGoCount] at h ⊢
    by_cases he : s1 = toxml (process dom)
    · rw [if_pos he] at h
      exact absurd h (by simp)
    · rw [if_neg he] at h ⊢
      rw [ih (process dom) (toxml (process dom)) (count + 1) h]
      omega

/-- **C1** (amended): `_compile_xacro_file` with budget `max_runs` fails
with the non-convergence error, after performing exactly `max_runs - 1`
expansion passes (not `max_runs`), precisely when each of the first
`max_runs - 1` expansion passes changes the serialized form of the
document.  In particular, with `max_runs = 10` a never-stabilizing
document raises after exactly `9` expansion iterations. -/
theorem compileXacroFile_nonConvergence {Doc : Type} (process : Doc → Doc)
    (toxml : Doc → Str) (parse : Str → Doc) (maxRuns : Nat) (text : Str) :
    compileXacroFile process toxml parse maxRuns text
        = (Except.error CompileError.nonConvergence, maxRuns - 1)
    ↔ ∀ i < maxRuns - 1,
        toxml (process^[i + 1] (parse text)) ≠ toxml (process^[i] (parse text)) := by
  constructor
  · intro h
    have h1 : (compileGoCount process toxml (maxRuns - 1) (parse text)
        (toxml (parse text)) 0).1 = .error .nonConvergence := by
      rw [compileXacroFile] at h
      rw [h]
    exact (compileGoCount_error_iff process toxml (maxRuns - 1)
      (parse text) 0).mp h1
  · intro h
    have h1 : (compileGoCount process toxml (maxRuns - 1) (parse text)
        (toxml (parse text)) 0).1 = .error .nonConvergence :=
      (compileGoCount_error_iff process toxml (maxRuns - 1)
        (parse text) 0).mpr h
    have h2 := compileGoCount_error_count process toxml (maxRuns - 1)
      (parse text) (toxml (parse text)) 0 h1
    rw [compileXacroFile, Prod.ext_iff]
    exact ⟨h1, by simpa using h2⟩

/-- Witness for `compileXacroFile_nonConvergence` at the concrete
never-stabilizing instance: documents are natural numbers, expansion is
successor, serialization is a run of `i` copies of the character `x`. -/
theorem compileXacroFile_nonConvergence_witness :
    compileXacroFile Nat.succ (fun n => List.replicate n 'x')
        (fun _ : Str => (0 : Nat)) 10 []
        = (Except.error CompileError.nonConvergence, 10 - 1)
    ↔ ∀ i < 10 - 1,
        List.replicate (Nat.succ^[i + 1] 0) 'x'
          ≠ List.replicate (Nat.succ^[i] 0) 'x' :=
  compileXacroFile_nonConvergence Nat.succ (fun n => List.replicate n 'x')
    (fun _ : Str => (0 : Nat)) 10 []

/-- **C1 counterexample**: with `max_runs = 10` on a document whose
expansion never stabilizes (successor on naturals, serialized as a growing
run of characters), the error is raised after exactly `9` expansion
iterations, not `10` as the claim states. -/
theorem compileXacroFile_nine_not_ten :
    compileXacroFile Nat.succ (fun n => List.replicate n 'x')
        (fun _ : Str => (0 : Nat)) 10 []
      = (Except.error CompileError.nonConvergence, 9) ∧ (9 : Nat) ≠ 10 :=
  ⟨rfl, by decide⟩

/-- The characters matched by the character class `[ \w-]` of the package
regex `package://([ \w-]+)/` in `_resolve_packages`: space, word
characters and dash.  Python's `\w` is modelled on its ASCII range
(letters, digits, underscore), which covers every package name in this
development. -/
def isWordCls (c : Char) : Bool :=
  c = ' ' || c.isAlpha || c.isDigit || c = '_' || c = '-'

/-- The literal prefix of the package regex. -/
def pkgProto : Str := "package://".toList

/-- Try to match `package://([ \w-]+)/` at the *start* of `s`, returning
the capture group.  Because `/` is not in the character class, the greedy
`+` needs no backtracking: the match succeeds exactly when the maximal
word-class run after the literal prefix is non-empty and is followed by
`/`. -/
def pkgGroupAt (s : Str) : Option Str :=
  if pkgProto <+: s then
    if ((s.drop pkgProto.length).takeWhile isWordCls ≠ [])
        ∧ ((s.drop pkgProto.length).drop
            ((s.drop pkgProto.length).takeWhile isWordCls).length).head?
          = some '/' then
      some ((s.drop pkgProto.length).takeWhile isWordCls)
    else none
  else none

/-- Model of `re.compile(r"package://([ \w-]+)/").search(filename)`:
scan left to right and return the capture group of the first match. -/
def pkgRegexSearch : Str → Option Str
  | [] => none
  | c :: rest =>
    match pkgGroupAt (c :: rest) with
    | some g => some g
    | none => pkgRegexSearch rest

/-- Worker for `replaceAll`, structurally recursive on a fuel bound so
that the kernel can evaluate it; `fuel ≥ s.length` makes the first arm
unreachable. -/
def replaceAllFuel (pat rep : Str) : Nat → Str → Str
  | 0, s => s
  | fuel + 1, s =>
    match s with
    | [] => []
    | c :: rest =>
      if pat ≠ [] ∧ pat <+: (c :: rest) then
        rep ++ replaceAllFuel pat rep fuel ((c :: rest).drop pat.length)
      else c :: replaceAllFuel pat rep fuel rest

/-- Model of `re.sub(pat, rep, s)` for a *literal* pattern `pat` (the
interpolated package name contains only `[ \w-]` characters, none of
which is a regex metacharacter): replace every non-overlapping
occurrence, leftmost first. -/
def replaceAll (pat rep s : Str) : Str :=
  replaceAllFuel pat rep s.length s

/-- The failure kinds of `_resolve_packages` for a single filename:
the explicit `ValueError` for spaces in the package name (carrying the
offending name), and the `AttributeError` hit when `.group(1)` is called
on a failed regex search. -/
inductive ResolveError where
  | spacesInPackageName (pkg : Str)
  | noRegexMatch
  deriving DecidableEq

/-- Embedding of the per-filename body of `_resolve_packages`
(xacrodoc.py, lines 104-118).  `getPath` models
`Path(packages.get_path(pkg)).absolute().as_posix()`: the resource
locator composed with absolute-path normalization. -/
def resolveFilename (getPath : Str → Str) (filename : Str) :
    Except ResolveError Str :=
  if pkgProto <+: filename then
    match pkgRegexSearch filename with
    | none => .error .noRegexMatch
    | some pkg =>
      if ' ' ∈ pkg then .error (.spacesInPackageName pkg)
      else .ok (replaceAll (pkgProto ++ pkg)
        ("file://".toList ++ getPath pkg) filename)
  else .ok filename

/-- An element of the XML document: its tag and its optional `filename`
attribute (the only attribute this core reads or writes; elements
without the attribute carry `none`). -/
structure Elem where
  tag : Str
  filename : Option Str
  deriving DecidableEq

/-- The document: its elements in document order. -/
abbrev XDoc := List Elem

def meshTag : Str := "mesh".toList

def materialTag : Str := "material".toList

/-- One pass of the iteration pattern shared by `_resolve_packages`,
`localize_assets` and `_copy_dom_change_paths`: visit every element with
tag `t` carrying a `filename` attribute, in document order, apply the
fallible stateful `step` to the attribute value and write the result
back.  (`_urdf_elements_with_filenames` concatenates
`getElementsByTagName("mesh")` and `getElementsByTagName("material")`,
so the callers below run this pass for `"mesh"` first and then for
`"material"`.) -/
def mapFilenames {S E : Type} (t : Str) (step : S → Str → Except E (Str × S)) :
    XDoc → S → Except E (XDoc × S)
  | [], st => .ok ([], st)
  | ⟨tag, none⟩ :: es, st =>
    match mapFilenames t step es st with
    | .error err => .error err
    | .ok (es', st') => .ok (⟨tag, none⟩ :: es', st')
  | ⟨tag, some f⟩ :: es, st =>
    if tag = t then
      match step st f with
      | .error err => .error err
      | .ok (f', st') =>
        match mapFilenames t step es st' with
        | .error err => .error err
        | .ok (es', st'') => .ok (⟨tag, some f'⟩ :: es', st'')
    else
      match mapFilenames t step es st with
      | .error err => .error err
      | .ok (es', st') => .ok (⟨tag, some f⟩ :: es', st')

/-- The full `mesh`-then-`material` traversal order of
`_urdf_elements_with_filenames`. -/
def processDocFilenames {S E : Type} (step : S → Str → Except E (Str × S))
    (doc : XDoc) (st : S) : Except E (XDoc × S) :=
  match mapFilenames meshTag step doc st with
  | .error err => .error err
  | .ok (doc1, st1) => mapFilenames materialTag step doc1 st1

/-- Lift a stateless per-filename transformation into the stateful `step`
shape expected by `mapFilenames`. -/
def statelessStep {E : Type} (g : Str → Except E Str) :
    Unit → Str → Except E (Str × Unit) :=
  fun _ f =>
    match g f with
    | .error err => .error err
    | .ok f' => .ok (f', ())

/-- Embedding of `_resolve_packages` (xacrodoc.py, lines 96-118). -/
def resolvePackagesDoc (getPath : Str → Str) (doc : XDoc) :
    Except ResolveError XDoc :=
  match processDocFilenames (statelessStep (resolveFilename getPath)) doc () with
  | .error err => .error err
  | .ok (doc', _) => .ok doc'

theorem replaceAllFuel_congr (pat rep : Str) (f1 f2 : Nat) (s : Str)
    (h1 : s.length ≤ f1) (h2 : s.length ≤ f2) :
    replaceAllFuel pat rep f1 s = replaceAllFuel pat rep f2 s := by
  induction f1 generalizing f2 s with
  | zero =>
    have hs : s = [] := by
      cases s with
      | nil => rfl
      | cons c rest => exact absurd h1 (by simp)
    subst hs
    cases f2 with
    | zero => rfl
    | succ f2 => rfl
  | succ f1 ih =>
    cases s with
    | nil =>
      cases f2 with
      | zero => rfl
      | succ f2 => rfl
    | cons c rest =>
      cases f2 with
      | zero => exact absurd h2 (by simp)
      | succ f2 =>
        rw [replaceAllFuel, replaceAllFuel]
        by_cases hc : pat ≠ [] ∧ pat <+: (c :: rest)
        · rw [if_pos hc, if_pos hc]
          congr 1
          have hlp : 1 ≤ pat.length := List.length_pos.mpr hc.1
          apply ih
          · simp only [List.length_drop, List.length_cons]
            simp only [List.length_cons] at h1
            omega
          · simp only [List.length_drop, List.length_cons]
            simp only [List.length_cons] at h2
            omega
        · rw [if_neg hc, if_neg hc]
          congr 1
          apply ih
          · simp only [List.length_cons] at h1
            omega
          · simp only [List.length_cons] at h2
            omega

theorem replaceAllFuel_not_contains (pat rep : Str) (fuel : Nat) (s : Str)
    (h : containsSub pat s = false) :
    replaceAllFuel pat rep fuel s = s := by
  induction fuel generalizing s with
  | zero => rfl
  | succ fuel ih =>
    cases s with
    | nil => rfl
    | cons c rest =>
      rw [containsSub] at h
      simp only [Bool.or_eq_false_iff, decide_eq_false_iff_not] at h
      rw [replaceAllFuel, if_neg (fun hc => h.1 hc.2)]
      rw [ih rest h.2]

theorem replaceAll_not_contains (pat rep s : Str)
    (h : containsSub pat s = false) : replaceAll pat rep s = s :=
  replaceAllFuel_not_contains pat rep s.length s h

theorem replaceAllFuel_succ_cons (pat rep : Str) (fuel : Nat) (c : Char)
    (rest : Str) :
    replaceAllFuel pat rep (fuel + 1) (c :: rest)
      = if pat ≠ [] ∧ pat <+: (c :: rest) then
          rep ++ replaceAllFuel pat rep fuel ((c :: rest).drop pat.length)
        else c :: replaceAllFuel pat rep fuel rest := rfl

theorem replaceAll_head (pat rep s : Str) (hp : pat ≠ []) :
    replaceAll pat rep (pat ++ s) = rep ++ replaceAll pat rep s := by
  match pat, hp with
  | p :: ps, _ =>
    show replaceAllFuel (p :: ps) rep (((p :: ps) ++ s).length) ((p :: ps) ++ s)
        = rep ++ replaceAllFuel (p :: ps) rep s.length s
    rw [List.cons_append]
    have hlen : (p :: (ps ++ s)).length = (ps ++ s).length + 1 := by simp
    rw [hlen, replaceAllFuel_succ_cons]
    have hpre : (p :: ps) ≠ [] ∧ (p :: ps) <+: (p :: (ps ++ s)) :=
      ⟨by simp, ⟨s, by simp⟩⟩
    rw [if_pos hpre]
    congr 1
    have hdrop : (p :: (ps ++ s)).drop (p :: ps).length = s := by
      simp only [List.length_cons, List.drop_succ_cons]
      exact List.drop_left ps s
    rw [hdrop]
    exact replaceAllFuel_congr (p :: ps) rep (ps ++ s).length s.length s
      (by simp) (Nat.le_refl _)

theorem takeWhile_all_stop (p : Char → Bool) (xs : Str) (y : Char) (ys : Str)
    (hxs : ∀ c ∈ xs, p c = true) (hy : p y = false) :
    (xs ++ y :: ys).takeWhile p = xs := by
  induction xs with
  | nil => simp [List.takeWhile_cons, hy]
  | cons x xs ih =>
    have hx : p x = true := hxs x (by simp)
    rw [List.cons_append, List.takeWhile_cons]
    simp only [hx, if_true]
    rw [ih (fun c hc => hxs c (by simp [hc]))]

theorem pkgGroupAt_structured (pkg rest : Str) (hne : pkg ≠ [])
    (hw : ∀ c ∈ pkg, isWordCls c = true) :
    pkgGroupAt (pkgProto ++ (pkg ++ '/' :: rest)) = some pkg := by
  have hdrop : (pkgProto ++ (pkg ++ '/' :: rest)).drop pkgProto.length
      = pkg ++ '/' :: rest := List.drop_left _ _
  have htake : (pkg ++ '/' :: rest).takeWhile isWordCls = pkg :=
    takeWhile_all_stop isWordCls pkg '/' rest hw (by decide)
  rw [pkgGroupAt, if_pos (List.prefix_append _ _), hdrop, htake]
  rw [if_pos ⟨hne, by rw [List.drop_left]; rfl⟩]

theorem pkgRegexSearch_at_head (s g : Str) (h : pkgGroupAt s = some g) :
    pkgRegexSearch s = some g := by
  cases s with
  | nil =>
    have h0 : pkgGroupAt [] = none := by decide
    rw [h0] at h
    exact absurd h (by simp)
  | cons c rest => rw [pkgRegexSearch, h]

theorem resolveFilename_structured_ok (getPath : Str → Str) (pkg rest : Str)
    (hne : pkg ≠ []) (hw : ∀ c ∈ pkg, isWordCls c = true)
    (hsp : ' ' ∉ pkg)
    (hnr : containsSub (pkgProto ++ pkg) ('/' :: rest) = false) :
    resolveFilename getPath (pkgProto ++ (pkg ++ '/' :: rest))
      = .ok ("file://".toList ++ (getPath pkg ++ '/' :: rest)) := by
  have hsearch := pkgRegexSearch_at_head (pkgProto ++ (pkg ++ '/' :: rest))
    pkg (pkgGroupAt_structured pkg rest hne hw)
  rw [resolveFilename, if_pos (List.prefix_append _ _), hsearch]
  show (if ' ' ∈ pkg then Except.error (ResolveError.spacesInPackageName pkg)
    else Except.ok (replaceAll (pkgProto ++ pkg)
      ("file://".toList ++ getPath pkg) (pkgProto ++ (pkg ++ '/' :: rest)))) = _
  rw [if_neg hsp]
  have hassoc : pkgProto ++ (pkg ++ '/' :: rest)
      = (pkgProto ++ pkg) ++ ('/' :: rest) := by simp
  rw [hassoc, replaceAll_head _ _ _ (by simp [pkgProto])]
  rw [replaceAll_not_contains _ _ _ hnr]
  simp

/-- **C7**: for every filename of the form `package://<pkg>/<rest>` whose
extracted package name `pkg` contains a space character (the only
whitespace admitted by the extraction class `[ \w-]`), `_resolve_packages`
raises the validation `ValueError` identifying the offending package name;
the result is the same for *every* locator `getPath`, i.e. the locator is
never consulted. -/
theorem resolveFilename_space_error (getPath : Str → Str) (pkg rest : Str)
    (hne : pkg ≠ []) (hw : ∀ c ∈ pkg, isWordCls c = true)
    (hsp : ' ' ∈ pkg) :
    resolveFilename getPath (pkgProto ++ (pkg ++ '/' :: rest))
        = .error (.spacesInPackageName pkg)
    ∧ (∀ getPath' : Str → Str,
        resolveFilename getPath' (pkgProto ++ (pkg ++ '/' :: rest))
          = resolveFilename getPath (pkgProto ++ (pkg ++ '/' :: rest))) := by
  have key : ∀ gp : Str → Str,
      resolveFilename gp (pkgProto ++ (pkg ++ '/' :: rest))
        = .error (.spacesInPackageName pkg) := by
    intro gp
    have hsearch := pkgRegexSearch_at_head (pkgProto ++ (pkg ++ '/' :: rest))
      pkg (pkgGroupAt_structured pkg rest hne hw)
    rw [resolveFilename, if_pos (List.prefix_append _ _), hsearch]
    show (if ' ' ∈ pkg then Except.error (ResolveError.spacesInPackageName pkg)
      else Except.ok (replaceAll (pkgProto ++ pkg)
        ("file://".toList ++ gp pkg) (pkgProto ++ (pkg ++ '/' :: rest)))) = _
    rw [if_pos hsp]
  exact ⟨key getPath, fun gp' => by rw [key gp', key getPath]⟩

/-- Witness for `resolveFilename_space_error` at the concrete filename
`package://a b/x.stl`. -/
theorem resolveFilename_space_error_witness :
    resolveFilename (fun _ => []) (pkgProto ++ ("a b".toList ++ '/' :: "x.stl".toList))
        = .error (.spacesInPackageName ("a b".toList))
    ∧ (∀ getPath' : Str → Str,
        resolveFilename getPath' (pkgProto ++ ("a b".toList ++ '/' :: "x.stl".toList))
          = resolveFilename (fun _ => [])
              (pkgProto ++ ("a b".toList ++ '/' :: "x.stl".toList))) :=
  resolveFilename_space_error (fun _ => []) ("a b".toList) ("x.stl".toList)
    (by decide) (by decide) (by decide)

/-- What one `mapFilenames` pass guarantees element-by-element: selected
elements (matching tag, attribute present) have their attribute rewritten
through `g`; all other elements are untouched. -/
def passRel {E : Type} (t : Str) (g : Str → Except E Str) (e e' : Elem) : Prop :=
  (e.tag = t ∧ ∃ f f', e.filename = some f ∧ g f = Except.ok f'
      ∧ e' = { e with filename := some f' })
  ∨ ((e.tag ≠ t ∨ e.filename = none) ∧ e' = e)

theorem statelessStep_error {E : Type} (g : Str → Except E Str) (f : Str)
    (err : E) (hg : g f = .error err) : statelessStep g () f = .error err := by
  rw [statelessStep, hg]

theorem statelessStep_ok {E : Type} (g : Str → Except E Str) (f f' : Str)
    (hg : g f = .ok f') : statelessStep g () f = .ok (f', ()) := by
  rw [statelessStep, hg]

theorem mapFilenames_ok_forall {E : Type} (t : Str) (g : Str → Except E Str)
    (doc doc' : XDoc) (u : Unit)
    (h : mapFilenames t (statelessStep g) doc () = .ok (doc', u)) :
    List.Forall₂ (passRel t g) doc doc' := by
  induction doc generalizing doc' with
  | nil =>
    rw [mapFilenames] at h
    cases h
    exact List.Forall₂.nil
  | cons e es ih =>
    obtain ⟨tag, fOpt⟩ := e
    cases fOpt with
    | none =>
      rw [mapFilenames] at h
      cases hrec : mapFilenames t (statelessStep g) es () with
      | error err => rw [hrec] at h; cases h
      | ok p =>
        rw [hrec] at h
        cases h
        exact List.Forall₂.cons (Or.inr ⟨Or.inr rfl, rfl⟩) (ih p.1 (by rw [hrec]))
    | some f =>
      rw [mapFilenames] at h
      by_cases ht : tag = t
      · rw [if_pos ht] at h
        cases hg : g f with
        | error err =>
          rw [statelessStep_error g f err hg] at h
          simp only [] at h
          cases h
        | ok f' =>
          rw [statelessStep_ok g f f' hg] at h
          simp only [] at h
          cases hrec : mapFilenames t (statelessStep g) es () with
          | error err => rw [hrec] at h; cases h
          | ok p =>
            rw [hrec] at h
            cases h
            exact List.Forall₂.cons (Or.inl ⟨ht, f, f', rfl, hg, rfl⟩)
              (ih p.1 (by rw [hrec]))
      · rw [if_neg ht] at h
        cases hrec : mapFilenames t (statelessStep g) es () with
        | error err => rw [hrec] at h; cases h
        | ok p =>
          rw [hrec] at h
          cases h
          exact List.Forall₂.cons (Or.inr ⟨Or.inl ht, rfl⟩) (ih p.1 (by rw [hrec]))

theorem forall2_compose {α β γ : Type} {r : α → β → Prop} {s : β → γ → Prop}
    {l1 : List α} {l2 : List β} {l3 : List γ}
    (h1 : List.Forall₂ r l1 l2) (h2 : List.Forall₂ s l2 l3) :
    List.Forall₂ (fun a c => ∃ b, r a b ∧ s b c) l1 l3 := by
  induction h1 generalizing l3 with
  | nil => cases h2; exact List.Forall₂.nil
  | cons hr _ ih =>
    cases h2 with
    | cons hs h2' => exact List.Forall₂.cons ⟨_, hr, hs⟩ (ih h2')

/-- **C2** (amended): if `_resolve_packages` completes successfully, then
every `mesh` or `material` element whose `filename` started as
`package://<pkg>/<rest>` — for a well-formed package segment (non-empty,
drawn from the regex class `[ \w-]`) such that the text `package://<pkg>`
does not reoccur in the remainder — has been rewritten to
`file://<resolved absolute path>/<rest>`; all as the claim states, except
that `re.sub` replaces *every* occurrence of `package://<pkg>` in the
attribute, so a remainder that repeats the package reference is itself
rewritten as well (see the counterexample). -/
theorem resolvePackages_rewrites (getPath : Str → Str) (doc doc' : XDoc)
    (hok : resolvePackagesDoc getPath doc = .ok doc') :
    List.Forall₂ (fun e e' =>
      ∀ pkg rest : Str,
        e.tag = meshTag ∨ e.tag = materialTag →
        e.filename = some (pkgProto ++ (pkg ++ '/' :: rest)) →
        pkg ≠ [] → (∀ c ∈ pkg, isWordCls c = true) →
        containsSub (pkgProto ++ pkg) ('/' :: rest) = false →
        e' = ⟨e.tag,
          some ("file://".toList ++ (getPath pkg ++ '/' :: rest))⟩) doc doc' := by
  have htag : meshTag ≠ materialTag := by decide
  rw [resolvePackagesDoc] at hok
  cases hp : processDocFilenames (statelessStep (resolveFilename getPath)) doc () with
  | error err => rw [hp] at hok; cases hok
  | ok q =>
    rw [hp] at hok
    cases hok
    rw [processDocFilenames] at hp
    cases hm : mapFilenames meshTag (statelessStep (resolveFilename getPath))
        doc () with
    | error err => rw [hm] at hp; cases hp
    | ok q1 =>
      rw [hm] at hp
      have h1 := mapFilenames_ok_forall meshTag (resolveFilename getPath)
        doc q1.1 q1.2 (by rw [hm])
      have h2 := mapFilenames_ok_forall materialTag (resolveFilename getPath)
        q1.1 q.1 q.2 hp
      refine (forall2_compose h1 h2).imp ?_
      rintro e e' ⟨em, hme, hmat⟩ pkg rest hsel hfil hne hw hnr
      have hval : ∀ f', resolveFilename getPath (pkgProto ++ (pkg ++ '/' :: rest))
          = Except.ok f'
          → f' = "file://".toList ++ (getPath pkg ++ '/' :: rest) := by
        intro f' hg
        by_cases hsp : ' ' ∈ pkg
        · exfalso
          rw [(resolveFilename_space_error getPath pkg rest hne hw hsp).1] at hg
          cases hg
        · rw [resolveFilename_structured_ok getPath pkg rest hne hw hsp hnr] at hg
          injection hg with hg
          exact hg.symm
      cases hsel with
      | inl hmesh =>
        rcases hme with ⟨_, f, f', hf, hg, hem⟩ | ⟨hnot, hem⟩
        · rw [hfil] at hf
          injection hf with hf
          subst hf
          have hf' := hval f' hg
          subst hf'
          rcases hmat with ⟨hmt, _⟩ | ⟨_, he'⟩
          · exfalso
            rw [hem] at hmt
            exact htag (hmesh ▸ hmt)
          · rw [he', hem]
        · exfalso
          rcases hnot with hn1 | hn2
          · exact hn1 hmesh
          · rw [hfil] at hn2; cases hn2
      | inr hmaterial =>
        have hnotmesh : e.tag ≠ meshTag := by
          rw [hmaterial]; exact fun hcon => htag hcon.symm
        rcases hme with ⟨hmt, _⟩ | ⟨_, hem⟩
        · exact absurd hmt hnotmesh
        · subst hem
          rcases hmat with ⟨_, f, f', hf, hg, he'⟩ | ⟨hnot, _⟩
          · rw [hfil] at hf
            injection hf with hf
            subst hf
            have hf' := hval f' hg
            subst hf'
            rw [he']
          · exfalso
            rcases hnot with hn1 | hn2
            · exact hn1 hmaterial
            · rw [hfil] at hn2; cases hn2

/-- Witness for `resolvePackages_rewrites` at the scenario of the spec:
two identical `mesh` references `package://robot_models/meshes/arm.stl`,
with `robot_models` resolving to `/robots/model_a`; both become
`file:///robots/model_a/meshes/arm.stl`. -/
theorem resolvePackages_rewrites_witness :
    List.Forall₂ (fun e e' : Elem =>
      ∀ pkg rest : Str,
        e.tag = meshTag ∨ e.tag = materialTag →
        e.filename = some (pkgProto ++ (pkg ++ '/' :: rest)) →
        pkg ≠ [] → (∀ c ∈ pkg, isWordCls c = true) →
        containsSub (pkgProto ++ pkg) ('/' :: rest) = false →
        e' = ⟨e.tag,
          some ("file://".toList
            ++ ((fun _ : Str => "/robots/model_a".toList) pkg ++ '/' :: rest))⟩)
      ([⟨meshTag, some ("package://robot_models/meshes/arm.stl".toList)⟩,
        ⟨meshTag, some ("package://robot_models/meshes/arm.stl".toList)⟩] : XDoc)
      ([⟨meshTag, some ("file:///robots/model_a/meshes/arm.stl".toList)⟩,
        ⟨meshTag, some ("file:///robots/model_a/meshes/arm.stl".toList)⟩] : XDoc) :=
  resolvePackages_rewrites (fun _ => "/robots/model_a".toList)
    ([⟨meshTag, some ("package://robot_models/meshes/arm.stl".toList)⟩,
      ⟨meshTag, some ("package://robot_models/meshes/arm.stl".toList)⟩] : XDoc)
    ([⟨meshTag, some ("file:///robots/model_a/meshes/arm.stl".toList)⟩,
      ⟨meshTag, some ("file:///robots/model_a/meshes/arm.stl".toList)⟩] : XDoc)
    (by rfl)

/-- **C2 counterexample**: when the remainder itself repeats the package
reference, `re.sub` rewrites it too, so the result is *not*
`file://<path>/<original remainder>`: `package://m/package://m/x` with
`m ↦ /p` becomes `file:///p/file:///p/x`, not `file:///p/package://m/x`. -/
theorem resolvePackages_rewrites_cex :
    resolvePackagesDoc (fun _ => "/p".toList)
        [⟨meshTag, some ("package://m/package://m/x".toList)⟩]
      = .ok [⟨meshTag, some ("file:///p/file:///p/x".toList)⟩]
    ∧ "file:///p/file:///p/x".toList ≠ "file:///p/package://m/x".toList :=
  ⟨by rfl, by decide⟩

/-- Model of `os.path.splitext` on basenames (no path separator): split
at the last dot, unless every character before that dot is itself a dot
(then there is no extension), implemented by splitting the reversed
string at its first dot. -/
def splitext (name : Str) : Str × Str :=
  match splitFirst ['.'] name.reverse with
  | none => (name, [])
  | some (a, b) =>
    if b.all (· = '.') then (name, [])
    else (b.reverse, '.' :: a.reverse)

/-- Model of the format `f"{count:03}"`: the decimal digits of `count`,
zero-padded on the left to width 3. -/
def pad3 (n : Nat) : Str :=
  List.replicate (3 - (Nat.toDigits 10 n).length) '0' ++ Nat.toDigits 10 n

/-- The candidate destination name `f"{stem}_{count:03}{ext}"` tried by
`_make_name_unique` for counter value `c`. -/
def uniqueCandidate (name : Str) (c : Nat) : Str :=
  (splitext name).1 ++ '_' :: (pad3 c ++ (splitext name).2)

/-- The failure of `_make_name_unique` (a `ValueError` carrying the
name), called `NameGenerationExhausted` by the spec. -/
inductive NameGenError where
  | exhausted (name : Str)
  deriving DecidableEq

/-- The `while count <= 100` loop of `_make_name_unique` (xacrodoc.py,
lines 179-185).  `count` is the Python counter; `fuel` is the number of
remaining admissible counter values, `101 - count`. -/
def makeNameUniqueLoop (stem ext : Str) (existing : List Str) :
    Nat → Nat → Except Unit Str
  | _, 0 => .error ()
  | count, fuel + 1 =>
    if stem ++ '_' :: (pad3 count ++ ext) ∈ existing then
      makeNameUniqueLoop stem ext existing (count + 1) fuel
    else .ok (stem ++ '_' :: (pad3 count ++ ext))

/-- Embedding of `_make_name_unique` (xacrodoc.py, lines 158-185). -/
def makeNameUnique (name : Str) (existing : List Str) :
    Except NameGenError Str :=
  if name ∈ existing then
    match makeNameUniqueLoop (splitext name).1 (splitext name).2 existing 1 100 with
    | .error _ => .error (.exhausted name)
    | .ok r => .ok r
  else .ok name

theorem makeNameUniqueLoop_ok_least (stem ext : Str) (existing : List Str)
    (fuel : Nat) :
    ∀ count c : Nat, count ≤ c → c < count + fuel →
    stem ++ '_' :: (pad3 c ++ ext) ∉ existing →
    (∀ c', count ≤ c' → c' < c → stem ++ '_' :: (pad3 c' ++ ext) ∈ existing) →
    makeNameUniqueLoop stem ext existing count fuel
      = .ok (stem ++ '_' :: (pad3 c ++ ext)) := by
  induction fuel with
  | zero => intro count c h1 h2; omega
  | succ fuel ih =>
    intro count c h1 h2 hfree htaken
    rw [makeNameUniqueLoop]
    by_cases hcur : stem ++ '_' :: (pad3 count ++ ext) ∈ existing
    · rw [if_pos hcur]
      have hcc : count ≠ c := fun hcon => hfree (hcon ▸ hcur)
      exact ih (count + 1) c (by omega) (by omega) hfree
        (fun c' hc1 hc2 => htaken c' (by omega) hc2)
    · rw [if_neg hcur]
      have hcc : count = c := by
        by_contra hcon
        exact hcur (htaken count (Nat.le_refl _) (by omega))
      rw [hcc]

theorem makeNameUniqueLoop_error_iff (stem ext : Str) (existing : List Str)
    (fuel : Nat) :
    ∀ count : Nat,
    (makeNameUniqueLoop stem ext existing count fuel = .error ()
      ↔ ∀ c, count ≤ c → c < count + fuel →
          stem ++ '_' :: (pad3 c ++ ext) ∈ existing) := by
  induction fuel with
  | zero =>
    intro count
    constructor
    · intro _ c h1 h2; omega
    · intro _; rfl
  | succ fuel ih =>
    intro count
    rw [makeNameUniqueLoop]
    by_cases hcur : stem ++ '_' :: (pad3 count ++ ext) ∈ existing
    · rw [if_pos hcur, ih (count + 1)]
      constructor
      · intro h c h1 h2
        rcases Nat.eq_or_lt_of_le h1 with hc | hc
        · exact hc ▸ hcur
        · exact h c hc (by omega)
      · intro h c h1 h2
        exact h c (by omega) (by omega)
    · rw [if_neg hcur]
      constructor
      · intro h; cases h
      · intro h
        exact absurd (h count (Nat.le_refl _) (by omega)) hcur

theorem makeNameUniqueLoop_ok_not_mem (stem ext : Str) (existing : List Str)
    (fuel : Nat) :
    ∀ count r, makeNameUniqueLoop stem ext existing count fuel = .ok r →
      r ∉ existing := by
  induction fuel with
  | zero => intro count r h; cases h
  | succ fuel ih =>
    intro count r h
    rw [makeNameUniqueLoop] at h
    by_cases hcur : stem ++ '_' :: (pad3 count ++ ext) ∈ existing
    · rw [if_pos hcur] at h
      exact ih (count + 1) r h
    · rw [if_neg hcur] at h
      cases h
      exact hcur

/-- **C4**: `_make_name_unique` keeps a fresh basename unchanged; when the
basename is already claimed it returns the candidate with the *smallest*
unused zero-padded counter in `1..100` inserted before the extension
(`name_001.ext`, `name_002.ext`, ...); every returned name is fresh with
respect to the existing set (so K distinct colliding sources receive K
distinct names); and it fails with the name-generation-exhausted error
exactly when the basename and all 100 suffixed candidates are taken. -/
theorem makeNameUnique_spec (name : Str) (existing : List Str) :
    (name ∉ existing → makeNameUnique name existing = .ok name)
    ∧ (∀ c : Nat, name ∈ existing → 1 ≤ c → c ≤ 100 →
        uniqueCandidate name c ∉ existing →
        (∀ c', 1 ≤ c' → c' < c → uniqueCandidate name c' ∈ existing) →
        makeNameUnique name existing = .ok (uniqueCandidate name c))
    ∧ (∀ r, makeNameUnique name existing = .ok r → r ∉ existing)
    ∧ (makeNameUnique name existing = .error (.exhausted name)
        ↔ name ∈ existing
          ∧ ∀ c, 1 ≤ c → c ≤ 100 → uniqueCandidate name c ∈ existing) := by
  refine ⟨?_, ?_, ?_, ?_⟩
  · intro hmem
    rw [makeNameUnique, if_neg hmem]
  · intro c hmem h1 h2 hfree htaken
    rw [makeNameUnique, if_pos hmem]
    rw [makeNameUniqueLoop_ok_least (splitext name).1 (splitext name).2 existing
      100 1 c h1 (by omega) hfree (fun c' hc1 hc2 => htaken c' hc1 hc2)]
    rfl
  · intro r h
    rw [makeNameUnique] at h
    by_cases hmem : name ∈ existing
    · rw [if_pos hmem] at h
      cases hloop : makeNameUniqueLoop (splitext name).1 (splitext name).2
          existing 1 100 with
      | error e => rw [hloop] at h; cases h
      | ok r2 =>
        rw [hloop] at h
        cases h
        exact makeNameUniqueLoop_ok_not_mem (splitext name).1 (splitext name).2
          existing 100 1 r hloop
    · rw [if_neg hmem] at h
      cases h
      exact hmem
  · rw [makeNameUnique]
    by_cases hmem : name ∈ existing
    · rw [if_pos hmem]
      cases hloop : makeNameUniqueLoop (splitext name).1 (splitext name).2
          existing 1 100 with
      | error e =>
        have hiff := (makeNameUniqueLoop_error_iff (splitext name).1
          (splitext name).2 existing 100 1).mp (by rw [hloop])
        constructor
        · intro _
          exact ⟨hmem, fun c h1 h2 => hiff c h1 (by omega)⟩
        · intro _; rfl
      | ok r =>
        constructor
        · intro h; cases h
        · rintro ⟨_, hall⟩
          have := (makeNameUniqueLoop_error_iff (splitext name).1
            (splitext name).2 existing 100 1).mpr
            (fun c h1 h2 => hall c h1 (by omega))
          rw [hloop] at this
          cases this
    · rw [if_neg hmem]
      constructor
      · intro h; cases h
      · rintro ⟨hcon, _⟩; exact absurd hcon hmem

/-- Witness for `makeNameUnique_spec` at `name = "x.stl"` with
`"x.stl"` and `"x_001.stl"` already taken (the smallest free counter is
`2`, giving `"x_002.stl"`). -/
theorem makeNameUnique_spec_witness :
    ("x.stl".toList ∉ ["x.stl".toList, "x_001.stl".toList] →
      makeNameUnique ("x.stl".toList) ["x.stl".toList, "x_001.stl".toList]
        = .ok ("x.stl".toList))
    ∧ (∀ c : Nat, "x.stl".toList ∈ ["x.stl".toList, "x_001.stl".toList] →
        1 ≤ c → c ≤ 100 →
        uniqueCandidate ("x.stl".toList) c ∉ ["x.stl".toList, "x_001.stl".toList] →
        (∀ c', 1 ≤ c' → c' < c →
          uniqueCandidate ("x.stl".toList) c' ∈ ["x.stl".toList, "x_001.stl".toList]) →
        makeNameUnique ("x.stl".toList) ["x.stl".toList, "x_001.stl".toList]
          = .ok (uniqueCandidate ("x.stl".toList) c))
    ∧ (∀ r, makeNameUnique ("x.stl".toList) ["x.stl".toList, "x_001.stl".toList]
        = .ok r → r ∉ ["x.stl".toList, "x_001.stl".toList])
    ∧ (makeNameUnique ("x.stl".toList) ["x.stl".toList, "x_001.stl".toList]
        = .error (.exhausted ("x.stl".toList))
        ↔ "x.stl".toList ∈ ["x.stl".toList, "x_001.stl".toList]
          ∧ ∀ c, 1 ≤ c → c ≤ 100 →
            uniqueCandidate ("x.stl".toList) c ∈ ["x.stl".toList, "x_001.stl".toList]) :=
  makeNameUnique_spec ("x.stl".toList) ["x.stl".toList, "x_001.stl".toList]

/-- Split a string on a separator character (model of `str.split(sep)`;
used to model `pathlib` components). -/
def splitOnChar (sep : Char) : Str → List Str
  | [] => [[]]
  | c :: rest =>
    if c = sep then [] :: splitOnChar sep rest
    else (c :: (splitOnChar sep rest).headI) :: (splitOnChar sep rest).tail

/-- The `parts` of a `pathlib` path (excluding any root): empty and `"."`
components are dropped, `".."` is kept, as `pathlib` does. -/
def pathParts (p : Str) : List Str :=
  (splitOnChar '/' p).filter fun c => decide (c ≠ []) && decide (c ≠ ".".toList)

/-- Model of `Path(path).name`: the last part, or `""` when there is
none. -/
def pathName (p : Str) : Str :=
  ((pathParts p).getLast?).getD []

/-- Model of `(asset_dir / basename).absolute().as_posix()` for an
`asset_dir` that is already an absolute, normalized path without a
trailing slash (the only way `localize_assets` is exercised in the
claims): `pathlib` joining then reduces to inserting a single slash. -/
def joinDirFile (dir basename : Str) : Str :=
  dir ++ '/' :: basename

/-- First-match lookup in an association list (Python `dict` access; the
lists below have unique keys by construction). -/
def lookupAssoc : List (Str × Str) → Str → Option Str
  | [], _ => none
  | (k', v) :: rest, k => if k = k' then some v else lookupAssoc rest k

/-- The mutable state of `localize_assets`: the `basenames` set and the
`path_map` dict (as an insertion-ordered association list). -/
structure LocState where
  basenames : List Str
  pathMap : List (Str × Str)
  deriving DecidableEq

/-- Embedding of the per-element body of the loop of `localize_assets`
(xacrodoc.py, lines 472-485): split off the protocol, reuse the mapped
basename if the stripped path was seen, otherwise allocate a unique
basename, record it, and point the element at `asset_dir / basename`
(keeping the element's own protocol).  The `shutil.copyfile` loop (lines
488-489) copies exactly the entries of the final `path_map`, one file per
entry; directory creation (line 470) is a filesystem effect outside the
model. -/
def localizeStep (assetDir : Str) (st : LocState) (filename : Str) :
    Except NameGenError (Str × LocState) :=
  match lookupAssoc st.pathMap (splitPathProtocol filename).2 with
  | some b => .ok ((splitPathProtocol filename).1 ++ joinDirFile assetDir b, st)
  | none =>
    match makeNameUnique (pathName (splitPathProtocol filename).2) st.basenames with
    | .error e => .error e
    | .ok b =>
      .ok ((splitPathProtocol filename).1 ++ joinDirFile assetDir b,
        ⟨st.basenames ++ [b],
         st.pathMap ++ [((splitPathProtocol filename).2, b)]⟩)

/-- Embedding of `XacroDoc.localize_assets` (xacrodoc.py, lines 452-489):
the mesh-then-material traversal with the state above, starting from an
empty set and an empty map. -/
def localizeAssets (assetDir : Str) (doc : XDoc) :
    Except NameGenError (XDoc × LocState) :=
  processDocFilenames (localizeStep assetDir) doc ⟨[], []⟩

theorem lookupAssoc_append (m ext : List (Str × Str)) (p : Str) :
    lookupAssoc (m ++ ext) p
      = match lookupAssoc m p with
        | some b => some b
        | none => lookupAssoc ext p := by
  induction m with
  | nil => rw [List.nil_append]; rfl
  | cons kv rest ih =>
    obtain ⟨k', v⟩ := kv
    rw [List.cons_append, lookupAssoc, lookupAssoc]
    by_cases hk : p = k'
    · rw [if_pos hk, if_pos hk]
    · rw [if_neg hk, if_neg hk, ih]

theorem lookupAssoc_none_iff (m : List (Str × Str)) (p : Str) :
    lookupAssoc m p = none ↔ p ∉ m.map Prod.fst := by
  induction m with
  | nil => simp [lookupAssoc]
  | cons kv rest ih =>
    obtain ⟨k', v⟩ := kv
    rw [lookupAssoc]
    by_cases hk : p = k'
    · simp [hk]
    · simp [hk, ih]

/-- What one `mapFilenames` pass of `localize_assets` guarantees for an
element, relative to the map `m` reached by the end of the whole run:
selected elements point at `asset_dir / b` for the basename `b` the map
associates to their stripped path; other elements are untouched. -/
def locPassRel (assetDir : Str) (m : List (Str × Str)) (t : Str)
    (e e' : Elem) : Prop :=
  (e.tag = t ∧ ∃ f b, e.filename = some f
      ∧ lookupAssoc m (splitPathProtocol f).2 = some b
      ∧ e' = ⟨e.tag, some ((splitPathProtocol f).1 ++ joinDirFile assetDir b)⟩)
  ∨ ((e.tag ≠ t ∨ e.filename = none) ∧ e' = e)

theorem locPassRel_mono (assetDir : Str) (m ext : List (Str × Str))
    (t : Str) (e e' : Elem) (h : locPassRel assetDir m t e e') :
    locPassRel assetDir (m ++ ext) t e e' := by
  rcases h with ⟨ht, f, b, hf, hl, he⟩ | hskip
  · refine Or.inl ⟨ht, f, b, hf, ?_, he⟩
    rw [lookupAssoc_append, hl]
  · exact Or.inr hskip

theorem mapFilenames_localize (t assetDir : Str) :
    ∀ (doc : XDoc) (st : LocState) (doc' : XDoc) (st' : LocState),
    mapFilenames t (localizeStep assetDir) doc st = .ok (doc', st') →
    (∃ ext, st'.pathMap = st.pathMap ++ ext)
    ∧ ((st.pathMap.map Prod.fst).Nodup → (st'.pathMap.map Prod.fst).Nodup)
    ∧ List.Forall₂ (locPassRel assetDir st'.pathMap t) doc doc'
    ∧ (∀ p b, (p, b) ∈ st'.pathMap → (p, b) ∈ st.pathMap
        ∨ ∃ e ∈ doc, e.tag = t ∧ ∃ f, e.filename = some f
            ∧ (splitPathProtocol f).2 = p) := by
  intro doc
  induction doc with
  | nil =>
    intro st doc' st' h
    rw [mapFilenames] at h
    cases h
    exact ⟨⟨[], by simp⟩, fun hn => hn, List.Forall₂.nil,
      fun p b hm => Or.inl hm⟩
  | cons e es ih =>
    intro st doc' st' h
    obtain ⟨tag, fOpt⟩ := e
    cases fOpt with
    | none =>
      rw [mapFilenames] at h
      cases hrec : mapFilenames t (localizeStep assetDir) es st with
      | error err => rw [hrec] at h; cases h
      | ok q =>
        rw [hrec] at h
        cases h
        obtain ⟨hext, hnd, hfa, hdom⟩ := ih st q.1 q.2 (by rw [hrec])
        refine ⟨hext, hnd,
          List.Forall₂.cons (Or.inr ⟨Or.inr rfl, rfl⟩) hfa, ?_⟩
        intro p b hm
        rcases hdom p b hm with hold | ⟨e0, he0, hsel⟩
        · exact Or.inl hold
        · exact Or.inr ⟨e0, List.mem_cons_of_mem _ he0, hsel⟩
    | some f =>
      rw [mapFilenames] at h
      by_cases ht : tag = t
      · rw [if_pos ht] at h
        cases hstep : localizeStep assetDir st f with
        | error err => rw [hstep] at h; cases h
        | ok r =>
          obtain ⟨f1, st1⟩ := r
          rw [hstep] at h
          simp only [] at h
          cases hrec : mapFilenames t (localizeStep assetDir) es st1 with
          | error err => rw [hrec] at h; cases h
          | ok q =>
            rw [hrec] at h
            cases h
            obtain ⟨hext2, hnd2, hfa2, hdom2⟩ := ih st1 q.1 q.2 (by rw [hrec])
            -- analyse the step itself
            have hstep' :
                (∃ ext1, st1.pathMap = st.pathMap ++ ext1)
                ∧ ((st.pathMap.map Prod.fst).Nodup
                    → (st1.pathMap.map Prod.fst).Nodup)
                ∧ (∃ b, lookupAssoc st1.pathMap (splitPathProtocol f).2 = some b
                    ∧ f1 = (splitPathProtocol f).1 ++ joinDirFile assetDir b)
                ∧ (∀ p b, (p, b) ∈ st1.pathMap → (p, b) ∈ st.pathMap
                    ∨ p = (splitPathProtocol f).2) := by
              rw [localizeStep] at hstep
              cases hl : lookupAssoc st.pathMap (splitPathProtocol f).2 with
              | some b =>
                rw [hl] at hstep
                cases hstep
                exact ⟨⟨[], by simp⟩, fun hn => hn, ⟨b, hl, rfl⟩,
                  fun p b hm => Or.inl hm⟩
              | none =>
                rw [hl] at hstep
                cases hmk : makeNameUnique (pathName (splitPathProtocol f).2)
                    st.basenames with
                | error err => rw [hmk] at hstep; cases hstep
                | ok b =>
                  rw [hmk] at hstep
                  cases hstep
                  refine ⟨⟨[((splitPathProtocol f).2, b)], rfl⟩, ?_, ?_, ?_⟩
                  · intro hn
                    have hnotin : (splitPathProtocol f).2 ∉ st.pathMap.map Prod.fst :=
                      (lookupAssoc_none_iff st.pathMap (splitPathProtocol f).2).mp hl
                    simp only [List.map_append, List.map_cons, List.map_nil]
                    rw [List.nodup_append]
                    refine ⟨hn, List.nodup_singleton _, ?_⟩
                    intro a ha hb
                    simp only [List.mem_singleton] at hb
                    exact hnotin (hb ▸ ha)
                  · refine ⟨b, ?_, rfl⟩
                    rw [lookupAssoc_append, hl, lookupAssoc, if_pos rfl]
                  · intro p b' hm
                    rcases List.mem_append.mp hm with hold | hnew
                    · exact Or.inl hold
                    · simp only [List.mem_singleton, Prod.mk.injEq] at hnew
                      exact Or.inr hnew.1
            obtain ⟨⟨ext1, hext1⟩, hnd1, ⟨b, hlb, hr1⟩, hdom1⟩ := hstep'
            obtain ⟨ext2, hext2v⟩ := hext2
            refine ⟨⟨ext1 ++ ext2, by rw [hext2v, hext1, List.append_assoc]⟩,
              fun hn => hnd2 (hnd1 hn), ?_, ?_⟩
            · refine List.Forall₂.cons (Or.inl ⟨ht, f, b, rfl, ?_, by rw [hr1]⟩) hfa2
              rw [hext2v, lookupAssoc_append, hlb]
            · intro p b' hm
              rcases hdom2 p b' hm with hmid | ⟨e0, he0, hsel⟩
              · rcases hdom1 p b' hmid with hold | hnew
                · exact Or.inl hold
                · exact Or.inr ⟨⟨tag, some f⟩, List.mem_cons_self _ _,
                    ht, f, rfl, hnew.symm⟩
              · exact Or.inr ⟨e0, List.mem_cons_of_mem _ he0, hsel⟩
      · rw [if_neg ht] at h
        cases hrec : mapFilenames t (localizeStep assetDir) es st with
        | error err => rw [hrec] at h; cases h
        | ok q =>
          rw [hrec] at h
          cases h
          obtain ⟨hext, hnd, hfa, hdom⟩ := ih st q.1 q.2 (by rw [hrec])
          refine ⟨hext, hnd,
            List.Forall₂.cons (Or.inr ⟨Or.inl ht, rfl⟩) hfa, ?_⟩
          intro p b hm
          rcases hdom p b hm with hold | ⟨e0, he0, hsel⟩
          · exact Or.inl hold
          · exact Or.inr ⟨e0, List.mem_cons_of_mem _ he0, hsel⟩

theorem forall2_mem_right {α β : Type} {r : α → β → Prop} {l1 : List α}
    {l2 : List β} {b : β} (h : List.Forall₂ r l1 l2) (hb : b ∈ l2) :
    ∃ a ∈ l1, r a b := by
  induction h with
  | nil => cases hb
  | cons hr _ ih =>
    rcases List.mem_cons.mp hb with hb1 | hb2
    · exact ⟨_, List.mem_cons_self _ _, hb1 ▸ hr⟩
    · obtain ⟨a, ha, har⟩ := ih hb2
      exact ⟨a, List.mem_cons_of_mem _ ha, har⟩

/-- **C3** (amended): if `localize_assets` completes successfully, the
final `path_map` binds each stripped source path to exactly one
destination basename (its keys are duplicate-free, so the copy loop
copies each source exactly once); every `mesh`/`material` element with a
`filename` is rewritten to its own protocol followed by
`asset_dir / b` where `b` is the basename the map assigns to the
element's stripped path — so all N references to one underlying file
point at the same localized file; and every map entry stems from some
referenced element.  Names are assigned lazily at first reference in
iteration order, which is all `mesh` elements (in document order)
followed by all `material` elements — not plain document traversal order
(see the counterexample). -/
theorem localizeAssets_dedup (assetDir : Str) (doc doc' : XDoc)
    (st : LocState) (hok : localizeAssets assetDir doc = .ok (doc', st)) :
    (st.pathMap.map Prod.fst).Nodup
    ∧ List.Forall₂ (fun e e' =>
        ∀ f, (e.tag = meshTag ∨ e.tag = materialTag) → e.filename = some f →
          ∃ b, lookupAssoc st.pathMap (splitPathProtocol f).2 = some b
            ∧ e' = ⟨e.tag, some ((splitPathProtocol f).1
                ++ joinDirFile assetDir b)⟩) doc doc'
    ∧ (∀ p b, (p, b) ∈ st.pathMap →
        ∃ e ∈ doc, (e.tag = meshTag ∨ e.tag = materialTag)
          ∧ ∃ f, e.filename = some f ∧ (splitPathProtocol f).2 = p) := by
  have htag : meshTag ≠ materialTag := by decide
  rw [localizeAssets, processDocFilenames] at hok
  cases hm : mapFilenames meshTag (localizeStep assetDir) doc ⟨[], []⟩ with
  | error err => rw [hm] at hok; cases hok
  | ok q1 =>
    obtain ⟨doc1, st1⟩ := q1
    rw [hm] at hok
    simp only [] at hok
    obtain ⟨hext1, hnd1, hfa1, hdom1⟩ :=
      mapFilenames_localize meshTag assetDir doc ⟨[], []⟩ doc1 st1 hm
    obtain ⟨hext2, hnd2, hfa2, hdom2⟩ :=
      mapFilenames_localize materialTag assetDir doc1 st1 doc' st hok
    obtain ⟨ext2, hextv⟩ := hext2
    have hfa1' : List.Forall₂ (locPassRel assetDir st.pathMap meshTag) doc doc1 :=
      hfa1.imp fun a b hrel => by
        rw [hextv]
        exact locPassRel_mono assetDir st1.pathMap ext2 meshTag a b hrel
    refine ⟨hnd2 (hnd1 (by simp)), ?_, ?_⟩
    · refine (forall2_compose hfa1' hfa2).imp ?_
      rintro e e' ⟨em, hme, hmat⟩ f hsel hfil
      cases hsel with
      | inl hmesh =>
        rcases hme with ⟨_, f0, b, hf0, hlb, hem⟩ | ⟨hskip, hem⟩
        · rw [hfil] at hf0
          injection hf0 with hf0
          subst hf0
          rcases hmat with ⟨hmt, _⟩ | ⟨_, he'⟩
          · exfalso
            rw [hem] at hmt
            exact htag (hmesh ▸ hmt)
          · exact ⟨b, hlb, by rw [he', hem]⟩
        · exfalso
          rcases hskip with hn1 | hn2
          · exact hn1 hmesh
          · rw [hfil] at hn2; cases hn2
      | inr hmaterial =>
        have hnm : e.tag ≠ meshTag := by
          rw [hmaterial]; exact fun hcon => htag hcon.symm
        rcases hme with ⟨hmt, _⟩ | ⟨_, hem⟩
        · exact absurd hmt hnm
        · subst hem
          rcases hmat with ⟨_, f0, b, hf0, hlb, he'⟩ | ⟨hskip, _⟩
          · rw [hfil] at hf0
            injection hf0 with hf0
            subst hf0
            exact ⟨b, hlb, by rw [he']⟩
          · exfalso
            rcases hskip with hn1 | hn2
            · exact hn1 hmaterial
            · rw [hfil] at hn2; cases hn2
    · intro p b hmem
      rcases hdom2 p b hmem with hmid | ⟨e1, he1, ht1, f1, hf1, hp1⟩
      · rcases hdom1 p b hmid with hin0 | ⟨e0, he0, ht0, f0, hf0, hp0⟩
        · simp at hin0
        · exact ⟨e0, he0, Or.inl ht0, f0, hf0, hp0⟩
      · obtain ⟨e0, he0, hrel⟩ := forall2_mem_right hfa1' he1
        rcases hrel with ⟨ht0, f0, b0, hf0, _, he1v⟩ | ⟨_, he1v⟩
        · exfalso
          rw [he1v] at ht1
          exact htag (ht0 ▸ ht1)
        · subst he1v
          exact ⟨e1, he0, Or.inr ht1, f1, hf1, hp1⟩

/-- Witness for `localizeAssets_dedup` at the scenario of the spec: two
`mesh` elements referencing `file:///robots/model_a/meshes/arm.stl`,
localized into `/tmp/out`: one map entry, both rewritten to
`file:///tmp/out/arm.stl`. -/
theorem localizeAssets_dedup_witness :
    (((⟨["arm.stl".toList],
        [("/robots/model_a/meshes/arm.stl".toList, "arm.stl".toList)]⟩ :
        LocState).pathMap.map Prod.fst).Nodup)
    ∧ List.Forall₂ (fun e e' : Elem =>
        ∀ f, (e.tag = meshTag ∨ e.tag = materialTag) → e.filename = some f →
          ∃ b, lookupAssoc (⟨["arm.stl".toList],
              [("/robots/model_a/meshes/arm.stl".toList, "arm.stl".toList)]⟩ :
              LocState).pathMap (splitPathProtocol f).2 = some b
            ∧ e' = ⟨e.tag, some ((splitPathProtocol f).1
                ++ joinDirFile ("/tmp/out".toList) b)⟩)
      ([⟨meshTag, some ("file:///robots/model_a/meshes/arm.stl".toList)⟩,
        ⟨meshTag, some ("file:///robots/model_a/meshes/arm.stl".toList)⟩] : XDoc)
      ([⟨meshTag, some ("file:///tmp/out/arm.stl".toList)⟩,
        ⟨meshTag, some ("file:///tmp/out/arm.stl".toList)⟩] : XDoc)
    ∧ (∀ p b, (p, b) ∈ (⟨["arm.stl".toList],
          [("/robots/model_a/meshes/arm.stl".toList, "arm.stl".toList)]⟩ :
          LocState).pathMap →
        ∃ e ∈ ([⟨meshTag, some ("file:///robots/model_a/meshes/arm.stl".toList)⟩,
            ⟨meshTag, some ("file:///robots/model_a/meshes/arm.stl".toList)⟩] : XDoc),
          (e.tag = meshTag ∨ e.tag = materialTag)
          ∧ ∃ f, e.filename = some f ∧ (splitPathProtocol f).2 = p) :=
  localizeAssets_dedup ("/tmp/out".toList)
    ([⟨meshTag, some ("file:///robots/model_a/meshes/arm.stl".toList)⟩,
      ⟨meshTag, some ("file:///robots/model_a/meshes/arm.stl".toList)⟩] : XDoc)
    ([⟨meshTag, some ("file:///tmp/out/arm.stl".toList)⟩,
      ⟨meshTag, some ("file:///tmp/out/arm.stl".toList)⟩] : XDoc)
    ⟨["arm.stl".toList],
     [("/robots/model_a/meshes/arm.stl".toList, "arm.stl".toList)]⟩
    (by rfl)

/-- **C3 counterexample**: destination names are *not* assigned in plain
document traversal order.  In a document whose first element is a
`material` and whose second is a `mesh`, both with basename `x.stl` but
different source files, the mesh (second in document order) is processed
first and receives the uncontested name `x.stl`, while the material
(first in document order) receives the suffixed `x_001.stl` — the
opposite of what lazy assignment in document traversal order would
produce. -/
theorem localizeAssets_order_cex :
    localizeAssets ("/out".toList)
        ([⟨materialTag, some ("/a/x.stl".toList)⟩,
          ⟨meshTag, some ("/b/x.stl".toList)⟩] : XDoc)
      = .ok (([⟨materialTag, some ("/out/x_001.stl".toList)⟩,
               ⟨meshTag, some ("/out/x.stl".toList)⟩] : XDoc),
             ⟨["x.stl".toList, "x_001.stl".toList],
              [("/b/x.stl".toList, "x.stl".toList),
               ("/a/x.stl".toList, "x_001.stl".toList)]⟩)
    ∧ "x_001.stl".toList ≠ "x.stl".toList :=
  ⟨by rfl, by decide⟩

/-- Outcome of one finder strategy `(func, err)` of `PackageFinder`
(packages.py, line 20): `found` models `func(pkg)` returning a path;
`notFound` models `func` raising its *declared* error type `err` (caught
by `get_path`, which then tries the next strategy); `fatal` models any
other exception (e.g. the `ValueError` of `walk_up_from`), which
`except err` does not catch and which therefore propagates. -/
inductive StratResult where
  | found (path : Str)
  | notFound
  | fatal
  deriving DecidableEq

/-- Embedding of `PackageFinder` state (packages.py, lines 17-22): the
ordered strategy list and the package cache. -/
structure PackageFinder where
  finderFuncs : List (Str → StratResult)
  packageCache : List (Str × Str)

/-- The failure surface of `PackageFinder.get_path`. -/
inductive GetPathError where
  | packageNotFound (pkg : Str)
  | fatal
  deriving DecidableEq

/-- The `for func, err in self.finder_funcs` loop of `get_path`
(packages.py, lines 124-132): the first strategy that does not signal
not-found wins; a successful path is added to the cache. -/
def getPathLoop (pf : PackageFinder) (pkg : Str) :
    List (Str → StratResult) → Except GetPathError (Str × PackageFinder)
  | [] => .error (.packageNotFound pkg)
  | func :: rest =>
    match func pkg with
    | .found p =>
      .ok (p, ⟨pf.finderFuncs, (pkg, p) :: pf.packageCache⟩)
    | .notFound => getPathLoop pf pkg rest
    | .fatal => .error .fatal

/-- Embedding of `PackageFinder.get_path` (packages.py, lines 101-132):
the cache is consulted first, then the strategies in list order. -/
def getPath (pf : PackageFinder) (pkg : Str) :
    Except GetPathError (Str × PackageFinder) :=
  match lookupAssoc pf.packageCache pkg with
  | some p => .ok (p, pf)
  | none => getPathLoop pf pkg pf.finderFuncs

/-- Embedding of `PackageFinder.update_package_cache` (packages.py,
lines 134-147).  `normalize` models
`Path(path).resolve().absolute().as_posix()` (a filesystem-dependent
normalization, kept abstract); `dict.update` makes the new entries win
every subsequent lookup, modelled by prepending them to the
first-match association list. -/
def updatePackageCache (normalize : Str → Str) (pf : PackageFinder)
    (pkgpaths : List (Str × Str)) : PackageFinder :=
  ⟨pf.finderFuncs, (pkgpaths.map fun q => (q.1, normalize q.2)) ++ pf.packageCache⟩

theorem getPathLoop_ok (pf : PackageFinder) (pkg : Str) :
    ∀ (funcs : List (Str → StratResult)) (p : Str) (pf' : PackageFinder),
    getPathLoop pf pkg funcs = .ok (p, pf') →
    pf' = ⟨pf.finderFuncs, (pkg, p) :: pf.packageCache⟩ := by
  intro funcs
  induction funcs with
  | nil => intro p pf' h; cases h
  | cons func rest ih =>
    intro p pf' h
    rw [getPathLoop] at h
    cases hf : func pkg with
    | found q => rw [hf] at h; cases h; rfl
    | notFound => rw [hf] at h; exact ih p pf' h
    | fatal => rw [hf] at h; cases h

/-- **C5**: once `get_path` has succeeded for a package name (by cache or
by any strategy), the name is in the cache mapped to the returned path;
every subsequent `get_path` on the resulting finder returns the same path
with the finder unchanged, and does so purely from the cache — the
result is the same for *every* strategy list, so no finder strategy is
invoked (cache lookup precedes strategy search).  Manually registered
overrides (`update_package_cache`) take precedence over cached
automatic-discovery entries on every subsequent call. -/
theorem getPath_cached (pf : PackageFinder) (pkg p : Str)
    (pf' : PackageFinder) (hok : getPath pf pkg = .ok (p, pf')) :
    lookupAssoc pf'.packageCache pkg = some p
    ∧ getPath pf' pkg = .ok (p, pf')
    ∧ (∀ funcs : List (Str → StratResult),
        getPath ⟨funcs, pf'.packageCache⟩ pkg
          = .ok (p, ⟨funcs, pf'.packageCache⟩))
    ∧ (∀ (normalize : Str → Str) (m : List (Str × Str)) (w : Str),
        lookupAssoc (m.map fun q => (q.1, normalize q.2)) pkg = some w →
        getPath (updatePackageCache normalize pf' m) pkg
          = .ok (w, updatePackageCache normalize pf' m)) := by
  have hcache : lookupAssoc pf'.packageCache pkg = some p := by
    rw [getPath] at hok
    cases hl : lookupAssoc pf.packageCache pkg with
    | some q =>
      rw [hl] at hok
      cases hok
      exact hl
    | none =>
      rw [hl] at hok
      have := getPathLoop_ok pf pkg pf.finderFuncs p pf' hok
      rw [this, lookupAssoc, if_pos rfl]
  refine ⟨hcache, ?_, ?_, ?_⟩
  · rw [getPath, hcache]
  · intro funcs
    rw [getPath]
    show (match lookupAssoc pf'.packageCache pkg with
      | some q => Except.ok (q, (⟨funcs, pf'.packageCache⟩ : PackageFinder))
      | none => getPathLoop ⟨funcs, pf'.packageCache⟩ pkg funcs) = _
    rw [hcache]
  · intro normalize m w hw
    rw [getPath]
    show (match lookupAssoc (updatePackageCache normalize pf' m).packageCache pkg with
      | some q => Except.ok (q, updatePackageCache normalize pf' m)
      | none => getPathLoop (updatePackageCache normalize pf' m) pkg
          (updatePackageCache normalize pf' m).finderFuncs) = _
    rw [show (updatePackageCache normalize pf' m).packageCache
        = (m.map fun q => (q.1, normalize q.2)) ++ pf'.packageCache from rfl]
    rw [lookupAssoc_append, hw]

/-- Witness for `getPath_cached`: a finder with one strategy resolving
`robot_models` to `/robots/model_a`; the first call populates the cache
and the theorem's consequences hold for the resulting finder. -/
theorem getPath_cached_witness :
    lookupAssoc (⟨[fun pkg => if pkg = "robot_models".toList
          then StratResult.found ("/robots/model_a".toList)
          else StratResult.notFound],
        [("robot_models".toList, "/robots/model_a".toList)]⟩ :
        PackageFinder).packageCache ("robot_models".toList)
      = some ("/robots/model_a".toList)
    ∧ getPath (⟨[fun pkg => if pkg = "robot_models".toList
          then StratResult.found ("/robots/model_a".toList)
          else StratResult.notFound],
        [("robot_models".toList, "/robots/model_a".toList)]⟩ : PackageFinder)
        ("robot_models".toList)
      = .ok ("/robots/model_a".toList,
          ⟨[fun pkg => if pkg = "robot_models".toList
              then StratResult.found ("/robots/model_a".toList)
              else StratResult.notFound],
           [("robot_models".toList, "/robots/model_a".toList)]⟩)
    ∧ (∀ funcs : List (Str → StratResult),
        getPath ⟨funcs, (⟨[fun pkg => if pkg = "robot_models".toList
              then StratResult.found ("/robots/model_a".toList)
              else StratResult.notFound],
            [("robot_models".toList, "/robots/model_a".toList)]⟩ :
            PackageFinder).packageCache⟩ ("robot_models".toList)
          = .ok ("/robots/model_a".toList,
              ⟨funcs, (⟨[fun pkg => if pkg = "robot_models".toList
                  then StratResult.found ("/robots/model_a".toList)
                  else StratResult.notFound],
                [("robot_models".toList, "/robots/model_a".toList)]⟩ :
                PackageFinder).packageCache⟩))
    ∧ (∀ (normalize : Str → Str) (m : List (Str × Str)) (w : Str),
        lookupAssoc (m.map fun q => (q.1, normalize q.2)) ("robot_models".toList)
          = some w →
        getPath (updatePackageCache normalize
            (⟨[fun pkg => if pkg = "robot_models".toList
                then StratResult.found ("/robots/model_a".toList)
                else StratResult.notFound],
              [("robot_models".toList, "/robots/model_a".toList)]⟩ :
              PackageFinder) m) ("robot_models".toList)
          = .ok (w, updatePackageCache normalize
              (⟨[fun pkg => if pkg = "robot_models".toList
                  then StratResult.found ("/robots/model_a".toList)
                  else StratResult.notFound],
                [("robot_models".toList, "/robots/model_a".toList)]⟩ :
                PackageFinder) m)) :=
  getPath_cached
    ⟨[fun pkg => if pkg = "robot_models".toList
        then StratResult.found ("/robots/model_a".toList)
        else StratResult.notFound], []⟩
    ("robot_models".toList) ("/robots/model_a".toList)
    ⟨[fun pkg => if pkg = "robot_models".toList
        then StratResult.found ("/robots/model_a".toList)
        else StratResult.notFound],
     [("robot_models".toList, "/robots/model_a".toList)]⟩
    (by rfl)

/-- The filesystem facts `walk_up_from`'s finder consults, indexed by
directories.  A directory is represented bottom-up, as the list of its
path components with the *deepest* first (so the parent is the tail and
the filesystem root is `[]`); `packageXmlNames` lists the text contents
of the `<name>` elements of the directory's `package.xml`. -/
structure WalkFS where
  hasPackageXml : List Str → Bool
  packageXmlNames : List Str → List Str
  hasManifest : List Str → Bool

/-- Outcome of the finder closure of `walk_up_from`: a found path, the
`PackageNotFoundError(pkg)` raised at the root (declared, so caught by
`get_path`), or the undeclared `ValueError` raised when `package.xml`
does not contain exactly one `<name>` element. -/
inductive WalkResult where
  | found (path : Str)
  | notFound (pkg : Str)
  | fatalValueError
  deriving DecidableEq

/-- `path.as_posix()` for an absolute directory given by its components
in top-down order. -/
def renderAbsPath (comps : List Str) : Str :=
  '/' :: List.intercalate ['/'] comps

/-- Embedding of the `finder_func` closure of `PackageFinder.walk_up_from`
(packages.py, lines 71-97): starting at the resolved start directory,
while the directory is not the root, check `package.xml` (fatal unless it
declares exactly one name; return the directory if that name is the
requested package) and then `manifest.xml` (return the directory
unconditionally if present), else move to the parent; reaching the root
raises `PackageNotFoundError(pkg)`. -/
def walkUpFinder (fs : WalkFS) (pkg : Str) : List Str → WalkResult
  | [] => .notFound pkg
  | d :: rest =>
    if fs.hasPackageXml (d :: rest) then
      if (fs.packageXmlNames (d :: rest)).length ≠ 1 then .fatalValueError
      else if (fs.packageXmlNames (d :: rest)).headI = pkg then
        .found (renderAbsPath (d :: rest).reverse)
      else if fs.hasManifest (d :: rest) then
        .found (renderAbsPath (d :: rest).reverse)
      else walkUpFinder fs pkg rest
    else if fs.hasManifest (d :: rest) then
      .found (renderAbsPath (d :: rest).reverse)
    else walkUpFinder fs pkg rest

/-- The `package.xml` of directory `s` declares exactly one name and it
is the requested package. -/
def nameMatchAt (fs : WalkFS) (pkg : Str) (s : List Str) : Prop :=
  fs.hasPackageXml s = true ∧ (fs.packageXmlNames s).length = 1
    ∧ (fs.packageXmlNames s).headI = pkg

/-- The `package.xml` of directory `s` does not declare exactly one
name (the `ValueError` case). -/
def fatalAt (fs : WalkFS) (s : List Str) : Prop :=
  fs.hasPackageXml s = true ∧ (fs.packageXmlNames s).length ≠ 1

/-- The walk returns directory `s`: no `ValueError`, and either the
declared name matches or a legacy `manifest.xml` is present
(unconditionally). -/
def returnAt (fs : WalkFS) (pkg : Str) (s : List Str) : Prop :=
  ¬ fatalAt fs s ∧ (nameMatchAt fs pkg s ∨ fs.hasManifest s = true)

/-- The walk passes through directory `s` to its parent. -/
def skipAt (fs : WalkFS) (pkg : Str) (s : List Str) : Prop :=
  ¬ fatalAt fs s ∧ ¬ nameMatchAt fs pkg s ∧ fs.hasManifest s = false

/-- **C8** (amended): the walk-up finder visits the start directory and
its ancestors, deepest first, stopping before the filesystem root.  It
signals package-not-found carrying the requested name exactly when every
visited directory is passed through — i.e. has no usable descriptor: for
`package.xml` the single declared name differs from the request (zero or
several names would be a fatal error), and no `manifest.xml` is present.
It returns the first (deepest) directory at which either the
`package.xml` name matches, or — *unconditionally*, with the directory
name playing no role — a legacy `manifest.xml` is present; a
`package.xml` that does not declare exactly one name at a visited
directory (before any return) is a fatal error.  The claim's assertion
that the legacy branch returns only when the directory name matches the
request is false (see the counterexample). -/
theorem walkUpFinder_spec (fs : WalkFS) (pkg : Str) (rpath : List Str) :
    (walkUpFinder fs pkg rpath = .notFound pkg
      ↔ ∀ j < rpath.length, skipAt fs pkg (rpath.drop j))
    ∧ (∀ q, walkUpFinder fs pkg rpath = .found q →
        ∃ k, k < rpath.length ∧ q = renderAbsPath (rpath.drop k).reverse
          ∧ returnAt fs pkg (rpath.drop k)
          ∧ ∀ j < k, skipAt fs pkg (rpath.drop j))
    ∧ (walkUpFinder fs pkg rpath = .fatalValueError →
        ∃ k, k < rpath.length ∧ fatalAt fs (rpath.drop k)
          ∧ ∀ j < k, skipAt fs pkg (rpath.drop j)) := by
  induction rpath with
  | nil =>
    refine ⟨?_, ?_, ?_⟩
    · constructor
      · intro _ j hj; simp at hj
      · intro _; rfl
    · intro q h; cases h
    · intro h; cases h
  | cons d rest ih =>
    obtain ⟨ihn, ihf, ihv⟩ := ih
    by_cases hx : fs.hasPackageXml (d :: rest) = true
    · by_cases hlen : (fs.packageXmlNames (d :: rest)).length = 1
      · by_cases hname : (fs.packageXmlNames (d :: rest)).headI = pkg
        · have heq : walkUpFinder fs pkg (d :: rest)
              = .found (renderAbsPath (d :: rest).reverse) := by
            rw [walkUpFinder, if_pos hx, if_neg (fun hc => hc hlen),
              if_pos hname]
          refine ⟨?_, ?_, ?_⟩
          · rw [heq]
            constructor
            · intro h; cases h
            · intro hall
              exact (((hall 0 (by simp)).2.1) ⟨hx, hlen, hname⟩).elim
          · intro q hq
            rw [heq] at hq
            injection hq with hq
            exact ⟨0, by simp, hq.symm,
              ⟨fun hc => hc.2 hlen, Or.inl ⟨hx, hlen, hname⟩⟩,
              fun j hj => absurd hj (by omega)⟩
          · intro h; rw [heq] at h; cases h
        · by_cases hman : fs.hasManifest (d :: rest) = true
          · have heq : walkUpFinder fs pkg (d :: rest)
                = .found (renderAbsPath (d :: rest).reverse) := by
              rw [walkUpFinder, if_pos hx, if_neg (fun hc => hc hlen),
                if_neg hname, if_pos hman]
            refine ⟨?_, ?_, ?_⟩
            · rw [heq]
              constructor
              · intro h; cases h
              · intro hall
                exact absurd hman (by simpa using (hall 0 (by simp)).2.2)
            · intro q hq
              rw [heq] at hq
              injection hq with hq
              exact ⟨0, by simp, hq.symm,
                ⟨fun hc => hc.2 hlen, Or.inr hman⟩,
                fun j hj => absurd hj (by omega)⟩
            · intro h; rw [heq] at h; cases h
          · have heq : walkUpFinder fs pkg (d :: rest)
                = walkUpFinder fs pkg rest := by
              rw [walkUpFinder, if_pos hx, if_neg (fun hc => hc hlen),
                if_neg hname, if_neg hman]
            have hskip0 : skipAt fs pkg (d :: rest) :=
              ⟨fun hc => hc.2 hlen, fun hm => hname hm.2.2, by simpa using hman⟩
            refine ⟨?_, ?_, ?_⟩
            · rw [heq, ihn]
              constructor
              · intro h j hj
                match j with
                | 0 => exact hskip0
                | j + 1 => exact h j (by simpa using hj)
              · intro h j hj
                exact h (j + 1) (by simpa using hj)
            · intro q hq
              rw [heq] at hq
              obtain ⟨k, hk, hqv, hret, hjs⟩ := ihf q hq
              refine ⟨k + 1, by simpa using hk, hqv, hret, ?_⟩
              intro j hj
              match j with
              | 0 => exact hskip0
              | j + 1 => exact hjs j (by omega)
            · intro h
              rw [heq] at h
              obtain ⟨k, hk, hfv, hjs⟩ := ihv h
              refine ⟨k + 1, by simpa using hk, hfv, ?_⟩
              intro j hj
              match j with
              | 0 => exact hskip0
              | j + 1 => exact hjs j (by omega)
      · have heq : walkUpFinder fs pkg (d :: rest) = .fatalValueError := by
          rw [walkUpFinder, if_pos hx, if_pos hlen]
        refine ⟨?_, ?_, ?_⟩
        · rw [heq]
          constructor
          · intro h; cases h
          · intro hall
            exact ((hall 0 (by simp)).1 ⟨hx, hlen⟩).elim
        · intro q hq; rw [heq] at hq; cases hq
        · intro _
          exact ⟨0, by simp, ⟨hx, hlen⟩, fun j hj => absurd hj (by omega)⟩
    · by_cases hman : fs.hasManifest (d :: rest) = true
      · have heq : walkUpFinder fs pkg (d :: rest)
            = .found (renderAbsPath (d :: rest).reverse) := by
          rw [walkUpFinder, if_neg hx, if_pos hman]
        refine ⟨?_, ?_, ?_⟩
        · rw [heq]
          constructor
          · intro h; cases h
          · intro hall
            exact absurd hman (by simpa using (hall 0 (by simp)).2.2)
        · intro q hq
          rw [heq] at hq
          injection hq with hq
          exact ⟨0, by simp, hq.symm,
            ⟨fun hc => hx hc.1, Or.inr hman⟩,
            fun j hj => absurd hj (by omega)⟩
        · intro h; rw [heq] at h; cases h
      · have heq : walkUpFinder fs pkg (d :: rest)
            = walkUpFinder fs pkg rest := by
          rw [walkUpFinder, if_neg hx, if_neg hman]
        have hskip0 : skipAt fs pkg (d :: rest) :=
          ⟨fun hc => hx hc.1, fun hm => hx hm.1, by simpa using hman⟩
        refine ⟨?_, ?_, ?_⟩
        · rw [heq, ihn]
          constructor
          · intro h j hj
            match j with
            | 0 => exact hskip0
            | j + 1 => exact h j (by simpa using hj)
          · intro h j hj
            exact h (j + 1) (by simpa using hj)
        · intro q hq
          rw [heq] at hq
          obtain ⟨k, hk, hqv, hret, hjs⟩ := ihf q hq
          refine ⟨k + 1, by simpa using hk, hqv, hret, ?_⟩
          intro j hj
          match j with
          | 0 => exact hskip0
          | j + 1 => exact hjs j (by omega)
        · intro h
          rw [heq] at h
          obtain ⟨k, hk, hfv, hjs⟩ := ihv h
          refine ⟨k + 1, by simpa using hk, hfv, ?_⟩
          intro j hj
          match j with
          | 0 => exact hskip0
          | j + 1 => exact hjs j (by omega)

/-- Witness for `walkUpFinder_spec` on a one-level directory with no
descriptor files: the walk reaches the root and signals not-found. -/
theorem walkUpFinder_spec_witness :
    (walkUpFinder ⟨fun _ => false, fun _ => [], fun _ => false⟩ ("p".toList)
        [("d".toList)] = .notFound ("p".toList)
      ↔ ∀ j < [("d".toList)].length,
          skipAt ⟨fun _ => false, fun _ => [], fun _ => false⟩ ("p".toList)
            ([("d".toList)].drop j))
    ∧ (∀ q, walkUpFinder ⟨fun _ => false, fun _ => [], fun _ => false⟩
          ("p".toList) [("d".toList)] = .found q →
        ∃ k, k < [("d".toList)].length
          ∧ q = renderAbsPath ([("d".toList)].drop k).reverse
          ∧ returnAt ⟨fun _ => false, fun _ => [], fun _ => false⟩ ("p".toList)
              ([("d".toList)].drop k)
          ∧ ∀ j < k, skipAt ⟨fun _ => false, fun _ => [], fun _ => false⟩
              ("p".toList) ([("d".toList)].drop j))
    ∧ (walkUpFinder ⟨fun _ => false, fun _ => [], fun _ => false⟩ ("p".toList)
          [("d".toList)] = .fatalValueError →
        ∃ k, k < [("d".toList)].length
          ∧ fatalAt ⟨fun _ => false, fun _ => [], fun _ => false⟩
              ([("d".toList)].drop k)
          ∧ ∀ j < k, skipAt ⟨fun _ => false, fun _ => [], fun _ => false⟩
              ("p".toList) ([("d".toList)].drop j)) :=
  walkUpFinder_spec ⟨fun _ => false, fun _ => [], fun _ => false⟩ ("p".toList)
    [("d".toList)]

/-- **C8 counterexample**: the legacy `manifest.xml` branch returns the
directory *unconditionally*: in a directory `foo` containing only a
`manifest.xml`, looking up the package `bar` returns `/foo` even though
the directory name `foo` differs from the requested package `bar` —
contradicting the claim that the directory is returned only when its name
matches the requested package. -/
theorem walkUpFinder_manifest_cex :
    walkUpFinder ⟨fun _ => false, fun _ => [], fun _ => true⟩ ("bar".toList)
        [("foo".toList)]
      = .found ("/foo".toList)
    ∧ "foo".toList ≠ "bar".toList :=
  ⟨rfl, by decide⟩

/-- The `".."` path component. -/
def dotdot : Str := "..".toList

/-- One step of lexical `".."` resolution over path components (the
normalization performed by `os.path.normpath` / `Path.resolve()` on a
symlink-free filesystem): `".."` pops the last component, anything else
is appended. -/
def stepComp (acc : List Str) (c : Str) : List Str :=
  if c = dotdot then acc.dropLast else acc ++ [c]

/-- Normalize the components of an absolute path (resolving `".."`
against the root). -/
def normAbsComps (parts : List Str) : List Str :=
  parts.foldl stepComp []

/-- Resolve a relative component list (possibly containing `".."`)
against a base component list — the semantics of "joining" a relative
path onto a directory. -/
def resolveRelComps (s rel : List Str) : List Str :=
  rel.foldl stepComp s

/-- Drop the longest common prefix of two component lists (the common
base used by `os.path.relpath`). -/
def dropCommon : List Str → List Str → List Str × List Str
  | [], ys => ([], ys)
  | x :: xs, [] => (x :: xs, [])
  | x :: xs, y :: ys =>
    if x = y then dropCommon xs ys else (x :: xs, y :: ys)

/-- The component list computed by `os.path.relpath`: one `".."` per
remaining base component, then the remaining path components. -/
def relpathComps (p s : List Str) : List Str :=
  ((dropCommon p s).2.map fun _ => dotdot) ++ (dropCommon p s).1

/-- Render a relative component list (`os.path.relpath` returns `"."`
for an empty one). -/
def renderRel (comps : List Str) : Str :=
  match comps with
  | [] => ".".toList
  | cs => List.intercalate ['/'] cs

/-- Model of `os.path.relpath(path, start)` for *absolute* `path` and
`start` (the only way `_copy_dom_change_paths` uses it in the claims;
for absolute inputs `abspath` reduces to lexical normalization). -/
def relpathStr (path start : Str) : Str :=
  renderRel (relpathComps (normAbsComps (pathParts path))
    (normAbsComps (pathParts start)))

/-- Model of `Path(base).parent` for an absolute `base`. -/
def parentDir (b : Str) : Str :=
  renderAbsPath ((pathParts b).dropLast)

/-- Model of `Path.is_absolute()` on POSIX. -/
def isAbsPath (p : Str) : Bool :=
  p.head? = some '/'

/-- Model of `str(Path(p))`: `pathlib` normalization (collapse duplicate
slashes, drop `"."` components, keep `".."`). -/
def strOfPath (p : Str) : Str :=
  if p.head? = some '/' then '/' :: List.intercalate ['/'] (pathParts p)
  else match pathParts p with
    | [] => ".".toList
    | parts => List.intercalate ['/'] parts

/-- The per-filename transformation of `_copy_dom_change_paths`
(xacrodoc.py, lines 272-293): strip the protocol; if `paths_relative_to`
is given, express the path relative to it (relative to its *parent* when
`start.is_file()` — a filesystem query, modelled by the `isFile`
oracle); otherwise, if `rootdir` is given and the path is relative,
resolve it against `rootdir` (modelled lexically for an absolute
`rootdir` on a symlink-free filesystem); re-prefix with `file://` iff
`file_protocols`. -/
def changeOnePath (isFile : Str → Bool) (fileProtocols : Bool)
    (pathsRelativeTo rootdir : Option Str) (f : Str) : Str :=
  (if fileProtocols then "file://".toList else []) ++
  (match pathsRelativeTo with
   | some base =>
     relpathStr (stripPathProtocol f)
       (if isFile base then parentDir base else base)
   | none =>
     match rootdir with
     | some r =>
       if isAbsPath (stripPathProtocol f) then strOfPath (stripPathProtocol f)
       else renderAbsPath (normAbsComps
         (pathParts r ++ pathParts (stripPathProtocol f)))
     | none => strOfPath (stripPathProtocol f))

/-- Serialization of one element in the XML form this model works with:
`<tag/>` or `<tag filename="f"/>` (the shape of the elements
`_urdf_elements_with_filenames` operates on). -/
def serializeElem (e : Elem) : Str :=
  '<' :: (e.tag ++ (match e.filename with
    | some f => ' ' :: ("filename=".toList ++ ('"' :: (f ++ ('"' :: ('/' :: ['>'])))))
    | none => '/' :: ['>']))

/-- Model of `dom.toxml()` over the document model: the concatenation of
the elements' serializations. -/
def serializeDoc (doc : XDoc) : Str :=
  (doc.map serializeElem).flatten

/-- Model of `dom.toprettyxml(indent="  ")` over the document model: one
element per line. -/
def serializeDocPretty (doc : XDoc) : Str :=
  (doc.map fun e => serializeElem e ++ ['\n']).flatten

/-- Characters that end a tag name for the parser. -/
def isTagStop (c : Char) : Bool :=
  c = ' ' || c = '/'

/-- Parse a `filename="..."` attribute followed by `"/>`, given the
already-parsed tag and the input after `filename="`. -/
def parseFilenameAttr (tag s2 : Str) : Option (Elem × Str) :=
  if ('"' :: "/>".toList) <+:
      s2.drop (s2.takeWhile fun c => !(decide (c = '"'))).length then
    some (⟨tag, some (s2.takeWhile fun c => !(decide (c = '"')))⟩,
      (s2.drop (s2.takeWhile fun c => !(decide (c = '"'))).length).drop 3)
  else none

/-- Parse one serialized element, returning it and the remaining
input. -/
def parseElem (s : Str) : Option (Elem × Str) :=
  match s with
  | '<' :: rest =>
    if rest.takeWhile (fun c => !(isTagStop c)) = [] then none
    else if "/>".toList <+:
        rest.drop (rest.takeWhile (fun c => !(isTagStop c))).length then
      some (⟨rest.takeWhile (fun c => !(isTagStop c)), none⟩,
        (rest.drop (rest.takeWhile (fun c => !(isTagStop c))).length).drop 2)
    else if (' ' :: ("filename=".toList ++ ['"'])) <+:
        rest.drop (rest.takeWhile (fun c => !(isTagStop c))).length then
      parseFilenameAttr (rest.takeWhile fun c => !(isTagStop c))
        ((rest.drop (rest.takeWhile (fun c => !(isTagStop c))).length).drop 11)
    else none
  | _ => none

/-- Model of `xml.dom.minidom.parseString` over the document model:
parse a sequence of serialized elements (`none` on malformed input, as
`parseString` raises). -/
def parseDocFuel : Nat → Str → Option XDoc
  | _, [] => some []
  | 0, _ :: _ => none
  | fuel + 1, c :: rest =>
    match parseElem (c :: rest) with
    | none => none
    | some (e, rest') => (parseDocFuel fuel rest').map fun es => e :: es

def parseDoc (s : Str) : Option XDoc :=
  parseDocFuel s.length s

/-- Well-formedness of an element for the serialization format: the tag
is non-empty and free of tag-stopping characters, the filename contains
no quote. -/
def wfElem (e : Elem) : Prop :=
  e.tag ≠ [] ∧ (∀ c ∈ e.tag, isTagStop c = false)
  ∧ (∀ f, e.filename = some f → '"' ∉ f)

theorem parseElem_serialize (e : Elem) (rest : Str) (hwf : wfElem e) :
    parseElem (serializeElem e ++ rest) = some (e, rest) := by
  obtain ⟨tag, fOpt⟩ := e
  obtain ⟨hne, htagc, hfc⟩ := hwf
  cases fOpt with
  | none =>
    have hshape : serializeElem ⟨tag, none⟩ ++ rest
        = '<' :: (tag ++ ('/' :: ('>' :: rest))) := by
      simp [serializeElem]
    rw [hshape, parseElem]
    have htake : (tag ++ ('/' :: ('>' :: rest))).takeWhile
        (fun c => !(isTagStop c)) = tag :=
      takeWhile_all_stop _ tag '/' _
        (fun c hc => by simp [htagc c hc]) (by decide)
    rw [htake, List.drop_left]
    rw [if_neg (by simpa using hne), if_pos ⟨rest, rfl⟩]
    rfl
  | some f =>
    have hfq : '"' ∉ f := hfc f rfl
    have hshape : serializeElem ⟨tag, some f⟩ ++ rest
        = '<' :: (tag ++ (' ' :: ("filename=".toList
            ++ ('"' :: (f ++ ('"' :: ('/' :: ('>' :: rest)))))))) := by
      simp [serializeElem]
    rw [hshape, parseElem]
    have htake : (tag ++ (' ' :: ("filename=".toList
        ++ ('"' :: (f ++ ('"' :: ('/' :: ('>' :: rest)))))))).takeWhile
        (fun c => !(isTagStop c)) = tag :=
      takeWhile_all_stop _ tag ' ' _
        (fun c hc => by simp [htagc c hc]) (by decide)
    rw [htake, List.drop_left]
    rw [if_neg (by simpa using hne)]
    rw [if_neg (fun hpre => by
      have := (List.cons_prefix_cons.mp hpre).1
      exact absurd this (by decide))]
    rw [if_pos ⟨f ++ ('"' :: ('/' :: ('>' :: rest))), by simp⟩]
    have hdrop11 : (' ' :: ("filename=".toList
        ++ ('"' :: (f ++ ('"' :: ('/' :: ('>' :: rest))))))).drop 11
        = f ++ ('"' :: ('/' :: ('>' :: rest))) := by
      have hsplit : (' ' :: ("filename=".toList
          ++ ('"' :: (f ++ ('"' :: ('/' :: ('>' :: rest)))))))
          = (' ' :: ("filename=".toList ++ ['"']))
            ++ (f ++ ('"' :: ('/' :: ('>' :: rest)))) := by simp
      rw [hsplit]
      exact List.drop_left' (by decide)
    rw [hdrop11, parseFilenameAttr]
    have htakef : (f ++ ('"' :: ('/' :: ('>' :: rest)))).takeWhile
        (fun c => !(decide (c = '"'))) = f :=
      takeWhile_all_stop _ f '"' _
        (fun c hc => by
          simp only [Bool.not_eq_true', decide_eq_false_iff_not]
          exact fun hcq => hfq (hcq ▸ hc))
        (by decide)
    rw [htakef, List.drop_left]
    rw [if_pos ⟨rest, rfl⟩]
    rfl

theorem parseDocFuel_serialize (doc : XDoc) :
    ∀ fuel : Nat, doc.length ≤ fuel → (∀ e ∈ doc, wfElem e) →
    parseDocFuel fuel (serializeDoc doc) = some doc := by
  induction doc with
  | nil =>
    intro fuel _ _
    show parseDocFuel fuel [] = some []
    cases fuel with
    | zero => rfl
    | succ fuel => rfl
  | cons e es ih =>
    intro fuel hlen hwf
    cases fuel with
    | zero => simp at hlen
    | succ fuel =>
      have hshape : serializeDoc (e :: es)
          = serializeElem e ++ serializeDoc es := by
        simp [serializeDoc]
      have hcons : ∃ c cs, serializeElem e ++ serializeDoc es = c :: cs := by
        rw [serializeElem]
        exact ⟨'<', _, rfl⟩
      obtain ⟨c, cs, hcs⟩ := hcons
      rw [hshape, hcs, parseDocFuel, ← hcs,
        parseElem_serialize e (serializeDoc es) (hwf e (by simp))]
      simp only []
      rw [ih fuel (by simpa using hlen) (fun e' he' => hwf e' (by simp [he']))]
      rfl

theorem parseDoc_serialize (doc : XDoc) (hwf : ∀ e ∈ doc, wfElem e) :
    parseDoc (serializeDoc doc) = some doc := by
  rw [parseDoc]
  refine parseDocFuel_serialize doc (serializeDoc doc).length ?_ hwf
  -- each serialized element is at least one character long
  induction doc with
  | nil => simp
  | cons e es ih =>
    have h1 : 1 ≤ (serializeElem e).length := by
      rw [serializeElem]
      simp
    have : serializeDoc (e :: es) = serializeElem e ++ serializeDoc es := by
      simp [serializeDoc]
    rw [this]
    simp only [List.length_cons, List.length_append]
    have ih2 := ih (fun e' he' => hwf e' (by simp [he']))
    omega

/-- One stateless pass of `_copy_dom_change_paths` over the elements of
tag `t`: rewrite each present `filename` attribute with `g`. -/
def mapFilenamesPure (t : Str) (g : Str → Str) : XDoc → XDoc
  | [] => []
  | ⟨tag, none⟩ :: es => ⟨tag, none⟩ :: mapFilenamesPure t g es
  | ⟨tag, some f⟩ :: es =>
    if tag = t then ⟨tag, some (g f)⟩ :: mapFilenamesPure t g es
    else ⟨tag, some f⟩ :: mapFilenamesPure t g es

/-- The full mesh-then-material rewrite of `_copy_dom_change_paths`
applied to (the copy of) the document. -/
def applyChangePaths (isFile : Str → Bool) (fileProtocols : Bool)
    (pathsRelativeTo rootdir : Option Str) (doc : XDoc) : XDoc :=
  mapFilenamesPure materialTag
    (changeOnePath isFile fileProtocols pathsRelativeTo rootdir)
    (mapFilenamesPure meshTag
      (changeOnePath isFile fileProtocols pathsRelativeTo rootdir) doc)

/-- Embedding of `_copy_dom` (xacrodoc.py, lines 226-241):
`parseString(dom.toxml())` — serialize the document and re-parse it into
a fresh tree. -/
def copyDom (doc : XDoc) : Option XDoc :=
  parseDoc (serializeDoc doc)

/-- Embedding of `_copy_dom_change_paths` (xacrodoc.py, lines 244-294):
deep-copy the document, then rewrite every asset path on the copy. -/
def copyDomChangePaths (isFile : Str → Bool) (fileProtocols : Bool)
    (pathsRelativeTo rootdir : Option Str) (doc : XDoc) : Option XDoc :=
  (copyDom doc).map
    (applyChangePaths isFile fileProtocols pathsRelativeTo rootdir)

/-- The session state of a `XacroDoc`: its document and the root
directory captured at load time. -/
structure XacroDocS where
  dom : XDoc
  rootdir : Option Str
  deriving DecidableEq

/-- Embedding of `XacroDoc.to_urdf_string` (xacrodoc.py, lines 674-707):
project the document through `_copy_dom_change_paths` and serialize the
copy (pretty or compact); the session's own `dom` is not reassigned, so
the (unchanged) session is returned alongside the string. -/
def toUrdfString (isFile : Str → Bool) (xd : XacroDocS)
    (fileProtocols : Bool) (pathsRelativeTo : Option Str) (pretty : Bool) :
    Option (Str × XacroDocS) :=
  (copyDomChangePaths isFile fileProtocols pathsRelativeTo xd.rootdir
    xd.dom).map
    fun dom =>
      ((if pretty then serializeDocPretty dom else serializeDoc dom), xd)

/-- **C6**: rendering the document to a string never mutates the
canonical in-memory document: `_copy_dom` re-parses the serialization
into a tree *equal* to the original (round trip), the projection is
computed on that copy, and for every combination of the projection
options the session returned by the rendering call is unchanged — in
particular the session's document is byte-identical in serialized form
(compact and pretty) before and after the call. -/
theorem toUrdfString_frame (isFile : Str → Bool) (xd : XacroDocS)
    (fileProtocols : Bool) (pathsRelativeTo : Option Str) (pretty : Bool)
    (hwf : ∀ e ∈ xd.dom, wfElem e) :
    copyDom xd.dom = some xd.dom
    ∧ toUrdfString isFile xd fileProtocols pathsRelativeTo pretty
        = some ((if pretty then serializeDocPretty else serializeDoc)
            (applyChangePaths isFile fileProtocols pathsRelativeTo
              xd.rootdir xd.dom), xd)
    ∧ (∀ out xd', toUrdfString isFile xd fileProtocols pathsRelativeTo pretty
        = some (out, xd') →
        xd' = xd ∧ serializeDoc xd'.dom = serializeDoc xd.dom
          ∧ serializeDocPretty xd'.dom = serializeDocPretty xd.dom) := by
  have hcopy : copyDom xd.dom = some xd.dom := parseDoc_serialize xd.dom hwf
  have hrun : toUrdfString isFile xd fileProtocols pathsRelativeTo pretty
      = some ((if pretty then serializeDocPretty else serializeDoc)
          (applyChangePaths isFile fileProtocols pathsRelativeTo
            xd.rootdir xd.dom), xd) := by
    rw [toUrdfString, copyDomChangePaths, hcopy]
    cases pretty with
    | true => rfl
    | false => rfl
  refine ⟨hcopy, hrun, ?_⟩
  intro out xd' h
  rw [hrun] at h
  injection h with h
  obtain ⟨_, h2⟩ := Prod.mk.injEq .. ▸ h
  exact ⟨h2.symm, by rw [h2], by rw [h2]⟩

/-- Witness for `toUrdfString_frame` on a concrete one-mesh session with
every option exercised at `pretty := true`, `file_protocols := true`,
`paths_relative_to := some "/tmp/out"`. -/
theorem toUrdfString_frame_witness :
    copyDom (⟨[⟨meshTag, some ("file:///a/b.stl".toList)⟩],
        some ("/root".toList)⟩ : XacroDocS).dom
      = some (⟨[⟨meshTag, some ("file:///a/b.stl".toList)⟩],
          some ("/root".toList)⟩ : XacroDocS).dom
    ∧ toUrdfString (fun _ => false)
        (⟨[⟨meshTag, some ("file:///a/b.stl".toList)⟩],
          some ("/root".toList)⟩ : XacroDocS) true
        (some ("/tmp/out".toList)) true
        = some ((if true then serializeDocPretty else serializeDoc)
            (applyChangePaths (fun _ => false) true
              (some ("/tmp/out".toList))
              (⟨[⟨meshTag, some ("file:///a/b.stl".toList)⟩],
                some ("/root".toList)⟩ : XacroDocS).rootdir
              (⟨[⟨meshTag, some ("file:///a/b.stl".toList)⟩],
                some ("/root".toList)⟩ : XacroDocS).dom),
            (⟨[⟨meshTag, some ("file:///a/b.stl".toList)⟩],
              some ("/root".toList)⟩ : XacroDocS))
    ∧ (∀ out xd', toUrdfString (fun _ => false)
        (⟨[⟨meshTag, some ("file:///a/b.stl".toList)⟩],
          some ("/root".toList)⟩ : XacroDocS) true
        (some ("/tmp/out".toList)) true = some (out, xd') →
        xd' = (⟨[⟨meshTag, some ("file:///a/b.stl".toList)⟩],
            some ("/root".toList)⟩ : XacroDocS)
          ∧ serializeDoc xd'.dom = serializeDoc
              (⟨[⟨meshTag, some ("file:///a/b.stl".toList)⟩],
                some ("/root".toList)⟩ : XacroDocS).dom
          ∧ serializeDocPretty xd'.dom = serializeDocPretty
              (⟨[⟨meshTag, some ("file:///a/b.stl".toList)⟩],
                some ("/root".toList)⟩ : XacroDocS).dom) :=
  toUrdfString_frame (fun _ => false)
    ⟨[⟨meshTag, some ("file:///a/b.stl".toList)⟩], some ("/root".toList)⟩
    true (some ("/tmp/out".toList)) true
    (by
      intro e he
      simp only [List.mem_singleton] at he
      subst he
      refine ⟨by decide, by decide, ?_⟩
      intro f hf
      injection hf with hf
      subst hf
      decide)

theorem dropCommon_spec (p : List Str) :
    ∀ s : List Str, ∃ common,
      p = common ++ (dropCommon p s).1 ∧ s = common ++ (dropCommon p s).2 := by
  induction p with
  | nil =>
    intro s
    rw [dropCommon]
    exact ⟨[], by simp, by simp⟩
  | cons x xs ih =>
    intro s
    cases s with
    | nil =>
      rw [dropCommon]
      exact ⟨[], by simp, by simp⟩
    | cons y ys =>
      rw [dropCommon]
      by_cases hxy : x = y
      · rw [if_pos hxy]
        subst hxy
        obtain ⟨common, h1, h2⟩ := ih ys
        exact ⟨x :: common, by rw [List.cons_append, ← h1],
          by rw [List.cons_append, ← h2]⟩
      · rw [if_neg hxy]
        exact ⟨[], by simp, by simp⟩

theorem foldl_dotdot (n : Nat) : ∀ s : List Str,
    List.foldl stepComp s (List.replicate n dotdot)
      = s.take (s.length - n) := by
  induction n with
  | zero => intro s; simp
  | succ n ih =>
    intro s
    rw [List.replicate_succ, List.foldl_cons]
    rw [show stepComp s dotdot = s.dropLast from by rw [stepComp, if_pos rfl]]
    rw [ih s.dropLast, List.length_dropLast, List.dropLast_eq_take,
      List.take_take]
    congr 1
    omega

theorem foldl_no_dotdot : ∀ (q : List Str) (acc : List Str), dotdot ∉ q →
    List.foldl stepComp acc q = acc ++ q := by
  intro q
  induction q with
  | nil => intro acc _; simp
  | cons x xs ih =>
    intro acc h
    rw [List.foldl_cons, stepComp,
      if_neg (fun hc : x = dotdot => h (hc ▸ List.mem_cons_self x xs))]
    rw [ih (acc ++ [x]) (fun hc => h (List.mem_cons_of_mem x hc))]
    simp

theorem resolveRel_relpath (p s : List Str) (hp : dotdot ∉ p) :
    resolveRelComps s (relpathComps p s) = p := by
  obtain ⟨common, hpv, hsv⟩ := dropCommon_spec p s
  set p1 := (dropCommon p s).1 with hp1
  set s1 := (dropCommon p s).2 with hs1
  rw [relpathComps, resolveRelComps, List.foldl_append, ← hp1, ← hs1]
  have hmap : (s1.map fun _ => dotdot) = List.replicate s1.length dotdot := by
    simp
  rw [hmap, foldl_dotdot s1.length s]
  have htake : s.take (s.length - s1.length) = common := by
    rw [hsv]
    simp only [List.length_append]
    rw [show common.length + s1.length - s1.length = common.length from by
      omega]
    exact List.take_left _ _
  rw [htake]
  rw [foldl_no_dotdot p1 common
    (fun hc => hp (hpv ▸ List.mem_append_right common hc))]
  exact hpv.symm

theorem mapFilenamesPure_forall (t : Str) (g : Str → Str) (doc : XDoc) :
    List.Forall₂ (fun e e' =>
      (e.tag = t ∧ ∃ f, e.filename = some f ∧ e' = ⟨e.tag, some (g f)⟩)
      ∨ ((e.tag ≠ t ∨ e.filename = none) ∧ e' = e))
      doc (mapFilenamesPure t g doc) := by
  induction doc with
  | nil => exact List.Forall₂.nil
  | cons e es ih =>
    obtain ⟨tag, fOpt⟩ := e
    cases fOpt with
    | none => exact List.Forall₂.cons (Or.inr ⟨Or.inr rfl, rfl⟩) ih
    | some f =>
      rw [mapFilenamesPure]
      by_cases ht : tag = t
      · rw [if_pos ht]
        exact List.Forall₂.cons (Or.inl ⟨ht, f, rfl, rfl⟩) ih
      · rw [if_neg ht]
        exact List.Forall₂.cons (Or.inr ⟨Or.inl ht, rfl⟩) ih

/-- **C9**: when projecting with `paths_relative_to` set, every
`mesh`/`material` resource reference is rewritten to the relative path of
its protocol-stripped value with respect to the supplied base — computed
by standard relative-path math (`os.path.relpath`), whose output, when
resolved back against the base, recovers the original (normalized)
absolute path — and whenever the supplied base is a file (the `is_file()
= true` oracle case, e.g. the output file passed by `to_urdf_file` with
`relative_paths=True`), its *parent directory* is used as the base of the
computation. -/
theorem copyDomChangePaths_relative (isFile : Str → Bool) (fp : Bool)
    (base : Str) (rootdir : Option Str) (doc doc' : XDoc)
    (hwf : ∀ e ∈ doc, wfElem e)
    (hok : copyDomChangePaths isFile fp (some base) rootdir doc = some doc') :
    List.Forall₂ (fun e e' =>
      ∀ f, (e.tag = meshTag ∨ e.tag = materialTag) → e.filename = some f →
        e' = ⟨e.tag, some ((if fp then "file://".toList else [])
          ++ relpathStr (stripPathProtocol f)
               (if isFile base then parentDir base else base))⟩) doc doc'
    ∧ (∀ p s : List Str, dotdot ∉ p →
        resolveRelComps s (relpathComps p s) = p) := by
  have htag : meshTag ≠ materialTag := by decide
  rw [copyDomChangePaths, copyDom, parseDoc_serialize doc hwf] at hok
  simp only [Option.map_some'] at hok
  injection hok with hok
  subst hok
  rw [applyChangePaths]
  have h1 := mapFilenamesPure_forall meshTag
    (changeOnePath isFile fp (some base) rootdir) doc
  have h2 := mapFilenamesPure_forall materialTag
    (changeOnePath isFile fp (some base) rootdir)
    (mapFilenamesPure meshTag (changeOnePath isFile fp (some base) rootdir) doc)
  refine ⟨(forall2_compose h1 h2).imp ?_,
    fun p s hp => resolveRel_relpath p s hp⟩
  rintro e e' ⟨em, hme, hmat⟩ f hsel hfil
  have hgv : changeOnePath isFile fp (some base) rootdir f
      = (if fp then "file://".toList else [])
        ++ relpathStr (stripPathProtocol f)
             (if isFile base then parentDir base else base) := rfl
  cases hsel with
  | inl hmesh =>
    rcases hme with ⟨_, f0, hf0, hem⟩ | ⟨hskip, hem⟩
    · rw [hfil] at hf0
      injection hf0 with hf0
      subst hf0
      rcases hmat with ⟨hmt, _⟩ | ⟨_, he'⟩
      · exfalso
        rw [hem] at hmt
        exact htag (hmesh ▸ hmt)
      · rw [he', hem, hgv]
    · exfalso
      rcases hskip with hn1 | hn2
      · exact hn1 hmesh
      · rw [hfil] at hn2; cases hn2
  | inr hmaterial =>
    have hnm : e.tag ≠ meshTag := by
      rw [hmaterial]; exact fun hcon => htag hcon.symm
    rcases hme with ⟨hmt, _⟩ | ⟨_, hem⟩
    · exact absurd hmt hnm
    · subst hem
      rcases hmat with ⟨_, f0, hf0, he'⟩ | ⟨hskip, _⟩
      · rw [hfil] at hf0
        injection hf0 with hf0
        subst hf0
        rw [he', hgv]
      · exfalso
        rcases hskip with hn1 | hn2
        · exact hn1 hmaterial
        · rw [hfil] at hn2; cases hn2

/-- Witness for `copyDomChangePaths_relative`: a mesh referencing
`file:///a/b/m.stl` projected relative to the output *file*
`/a/out.urdf` (so its parent `/a` is the base) becomes
`file://b/m.stl`. -/
theorem copyDomChangePaths_relative_witness :
    List.Forall₂ (fun e e' : Elem =>
      ∀ f, (e.tag = meshTag ∨ e.tag = materialTag) → e.filename = some f →
        e' = ⟨e.tag, some ((if true then "file://".toList else [])
          ++ relpathStr (stripPathProtocol f)
               (if (fun _ : Str => true) ("/a/out.urdf".toList)
                then parentDir ("/a/out.urdf".toList)
                else "/a/out.urdf".toList))⟩)
      ([⟨meshTag, some ("file:///a/b/m.stl".toList)⟩] : XDoc)
      ([⟨meshTag, some ("file://b/m.stl".toList)⟩] : XDoc)
    ∧ (∀ p s : List Str, dotdot ∉ p →
        resolveRelComps s (relpathComps p s) = p) :=
  copyDomChangePaths_relative (fun _ => true) true ("/a/out.urdf".toList)
    none ([⟨meshTag, some ("file:///a/b/m.stl".toList)⟩] : XDoc)
    ([⟨meshTag, some ("file://b/m.stl".toList)⟩] : XDoc)
    (by
      intro e he
      simp only [List.mem_singleton] at he
      subst he
      refine ⟨by decide, by decide, ?_⟩
      intro f hf
      injection hf with hf
      subst hf
      decide)
    (by rfl)
